import Mathlib

/-!
conky, `src/proc.c`: process-attribute text objects.

A shallow embedding of the scan and print routines of `src/proc.c` and the
properties of its specification.

Conventions of the embedding
* a byte is a `Nat` (0..255); a C string is the run of bytes before the first
  NUL of a memory region (`cstr`);
* the output buffer `p` is not read by any routine: a print routine returns
  the list of stores it performs into `p` (index relative to `p`, byte), in
  program order, together with the diagnostics it reports;
* the pseudo-filesystem is a record of three lookup functions (`Procfs`);
* memory whose content the C code leaves indeterminate (an automatic array,
  the tail of a `realloc` block) is a parameter of the routine.
-/

set_option autoImplicit false

namespace Proc

/-! ## Bytes, C strings and stores -/

/-- C string held at the start of a memory region: the bytes before its first NUL. -/
def cstr (m : List Nat) : List Nat := m.takeWhile (fun b => b != 0)

/-- C string starting at offset `off` of a memory region (`buf + off`). -/
def cstrAt (m : List Nat) (off : Nat) : List Nat := cstr (m.drop off)

/-- The `isspace` classification of the C locale: space, TAB, LF, VT, FF, CR. -/
def isspace (c : Nat) : Bool := c == 32 || (9 ≤ c && c ≤ 13)

/-- The `isdigit` classification. -/
def isdigit (c : Nat) : Bool := 48 ≤ c && c ≤ 57

/-- The `toupper` mapping of the C locale. -/
def toupper (c : Nat) : Nat := if 97 ≤ c ∧ c ≤ 122 then c - 32 else c

/-- Stores of consecutive bytes starting at index `off`. -/
def storeAt : Int → List Nat → List (Int × Nat)
  | _, [] => []
  | off, b :: bs => (off, b) :: storeAt (off + 1) bs

/-- Conversion of an `int` to `size_t` (64 bit): a negative value wraps. -/
def size_t (n : Int) : Nat := if n < 0 then (n + 2 ^ 64).toNat else n.toNat

/-- Stores performed by `snprintf(p + off, size, "%s", text)`: at most
`size - 1` bytes of `text` followed by a NUL; nothing when `size` is 0. -/
def snprintf (off : Int) (size : Int) (text : List Nat) : List (Int × Nat) :=
  if size_t size = 0 then [] else storeAt off (text.take (size_t size - 1) ++ [0])

/-- One store into a memory region; a store outside the region is dropped. -/
def poke (m : List Nat) (w : Int × Nat) : List Nat :=
  if 0 ≤ w.1 then m.set w.1.toNat w.2 else m

/-- Memory region after a sequence of stores. -/
def applyWrites (m : List Nat) (ws : List (Int × Nat)) : List Nat := ws.foldl poke m

/-- All stores fall inside the first `cap` bytes of the region. -/
def inBounds (cap : Nat) (ws : List (Int × Nat)) : Prop :=
  ∀ w ∈ ws, 0 ≤ w.1 ∧ w.1 < (cap : Int)

instance (cap : Nat) (ws : List (Int × Nat)) : Decidable (inBounds cap ws) := by
  unfold inBounds; infer_instance

/-- Diagnostics reported through `NORM_ERR`. -/
inductive Diag where
  | READERR (path : List Nat)
  | STATENOTFOUND (path : List Nat)
  deriving DecidableEq, Repr

/-- Effect of a print routine on its environment: the stores into the output
buffer `p` and the diagnostics it reports. -/
structure PrintResult where
  writes : List (Int × Nat)
  errs : List Diag
  deriving DecidableEq, Repr

/-- Text held by an output buffer with prior content `prior` after a print routine. -/
def outText (prior : List Nat) (r : PrintResult) : List Nat :=
  cstr (applyWrites prior r.writes)

/-- The pseudo-filesystem seen by the print routines: `fopen` + full content,
`readlink` (the link target) and `opendir` + `readdir` (entry names in order). -/
structure Procfs where
  fopen : List Nat → Option (List Nat)
  readlink : List Nat → Option (List Nat)
  opendir : List Nat → Option (List (List Nat))

/-! ## `sscanf` -/

/-- Directives of a `scanf` format, as far as `proc.c` uses them. -/
inductive Directive where
  | space
  | lit (c : Nat)
  | set (neg : Bool) (ranges : List (Nat × Nat))
  | dec
  | str
  deriving DecidableEq, Repr

/-- A value assigned by a conversion. -/
inductive Arg where
  | int (v : Int)
  | str (s : List Nat)
  deriving DecidableEq, Repr

/-- Result of `sscanf`: the return value and the assigned values in order. -/
structure ScanOut where
  ret : Int
  args : List Arg
  deriving DecidableEq, Repr

/-- Body of a scanset after `%[`, an optional `^` and an optional leading `]`:
members up to the closing `]`. A `-` between two members adds the range from
the byte before it (`prev`) up to the byte after it. No closing `]`: `none`. -/
def parseSetBody : Nat → List Nat → List (Nat × Nat) → Option (List (Nat × Nat) × List Nat)
  | _, [], _ => none
  | prev, c :: rest, acc =>
    if c = 93 then some (acc, rest)
    else if c = 45 then
      match rest with
      | [] => none
      | d :: _ =>
        if d ≠ 93 ∧ prev ≤ d then parseSetBody c rest (acc ++ [(prev, d - 1)])
        else parseSetBody c rest (acc ++ [(45, 45)])
    else parseSetBody c rest (acc ++ [(c, c)])

/-- Scanset conversion `%[...]`, the input being what follows `%[`. -/
def parseScanset (f : List Nat) : Option (Directive × List Nat) :=
  let neg := f.head? == some 94
  let f1 := if neg then f.drop 1 else f
  let lead := f1.head? == some 93
  let f2 := if lead then f1.drop 1 else f1
  let prev := if lead then 93 else if neg then 94 else 91
  (parseSetBody prev f2 (if lead then [(93, 93)] else [])).map
    (fun r => (Directive.set neg r.1, r.2))

/-- Format string to directives. Conversions other than `%d`, `%s` and `%[`
are outside the embedding (`none`). -/
def parseFormat : Nat → List Nat → Option (List Directive)
  | 0, _ => none
  | _ + 1, [] => some []
  | fuel + 1, c :: rest =>
    if c = 37 then
      match rest with
      | [] => none
      | k :: rest1 =>
        if k = 100 then (parseFormat fuel rest1).map (List.cons Directive.dec)
        else if k = 115 then (parseFormat fuel rest1).map (List.cons Directive.str)
        else if k = 91 then
          match parseScanset rest1 with
          | none => none
          | some (d, rest2) => (parseFormat fuel rest2).map (List.cons d)
        else none
    else if isspace c then (parseFormat fuel rest).map (List.cons Directive.space)
    else (parseFormat fuel rest).map (List.cons (Directive.lit c))

/-- Membership of a byte in a scanset. -/
def inSet (neg : Bool) (ranges : List (Nat × Nat)) (c : Nat) : Bool :=
  xor neg (ranges.any (fun r => r.1 ≤ c && c ≤ r.2))

/-- Value of a run of decimal digits. -/
def digitsVal (ds : List Nat) : Nat := ds.foldl (fun a d => 10 * a + (d - 48)) 0

/-- The `int` stored by `%d` for the mathematical value `v`: `strtol` clamps
to the range of `long` (64 bit), the assignment keeps the low 32 bits. -/
def toInt32 (v : Int) : Int :=
  let l := max (-(2 : Int) ^ 63) (min v ((2 : Int) ^ 63 - 1))
  (l + 2 ^ 31) % 2 ^ 32 - 2 ^ 31

/-- Return value when the input ends before a directive is satisfied: `EOF`
before the first assignment, the number of assignments otherwise. -/
def inputFailure (acc : List Arg) : ScanOut :=
  ⟨if acc.isEmpty then -1 else acc.length, acc⟩

/-- Return value at a matching failure or at the end of the format. -/
def scanStop (acc : List Arg) : ScanOut := ⟨acc.length, acc⟩

/-- Execution of the directives on the input text. -/
def scanRun : List Directive → List Nat → List Arg → ScanOut
  | [], _, acc => scanStop acc
  | Directive.space :: ds, inp, acc => scanRun ds (inp.dropWhile isspace) acc
  | Directive.lit c :: ds, inp, acc =>
    match inp with
    | [] => inputFailure acc
    | x :: xs => if x = c then scanRun ds xs acc else scanStop acc
  | Directive.set neg rs :: ds, inp, acc =>
    match inp with
    | [] => inputFailure acc
    | x :: xs =>
      if inSet neg rs x then
        scanRun ds ((x :: xs).dropWhile (inSet neg rs))
          (acc ++ [Arg.str ((x :: xs).takeWhile (inSet neg rs))])
      else scanStop acc
  | Directive.dec :: ds, inp, acc =>
    match inp.dropWhile isspace with
    | [] => inputFailure acc
    | x :: xs =>
      let body := if x = 43 ∨ x = 45 then xs else x :: xs
      let digits := body.takeWhile isdigit
      if digits.isEmpty then scanStop acc
      else
        let v : Int := digitsVal digits
        scanRun ds (body.dropWhile isdigit)
          (acc ++ [Arg.int (toInt32 (if x = 45 then -v else v))])
  | Directive.str :: ds, inp, acc =>
    match inp.dropWhile isspace with
    | [] => inputFailure acc
    | x :: xs =>
      scanRun ds ((x :: xs).dropWhile (fun c => !isspace c))
        (acc ++ [Arg.str ((x :: xs).takeWhile (fun c => !isspace c))])

/-- Number of conversions of a directive list. -/
def conversions (ds : List Directive) : Nat :=
  (ds.filter (fun d => d != Directive.space && !(match d with | Directive.lit _ => true | _ => false))).length

/-- Model of `sscanf(input, fmt, a1, ..., an)` with `nargs` destination
arguments. `none`: the format is outside the embedding or has more
conversions than there are destinations (undefined in C). -/
def sscanf (nargs : Nat) (input fmt : List Nat) : Option ScanOut :=
  match parseFormat (fmt.length + 1) (cstr fmt) with
  | none => none
  | some ds => if conversions ds ≤ nargs then some (scanRun ds (cstr input) []) else none

/-! ## Reading a whole pseudo-file in chunks -/

/-- The `do ... while (bytes_read != 0)` loop shared by the environment and
status routines: `fread` delivers up to `p_max_size` bytes per round; returns
`total_read` bytes read and the last `bytes_read`. -/
def readLoop : Nat → Nat → List Nat → List Nat → List Nat × Nat
  | 0, _, _, acc => (acc, 0)
  | fuel + 1, p_max_size, rest, acc =>
    let chunk := rest.take p_max_size
    let bytes_read := chunk.length
    if bytes_read != 0 then readLoop fuel p_max_size (rest.drop p_max_size) (acc ++ chunk)
    else (acc ++ chunk, bytes_read)

/-- Bytes read by the chunk loop from a file with the given content. -/
def readAll (content : List Nat) (p_max_size : Nat) : List Nat :=
  (readLoop (content.length + 1) p_max_size content []).1

/-! ## `print_pid_cmdline` -/

/-- The `for (i = 0; i < bytes_read-1; i++)` loop: `k` rounds remain. -/
def cmdline_loop : Nat → Nat → List Nat → List Nat
  | 0, _, buf => buf
  | k + 1, i, buf => cmdline_loop k (i + 1) (if buf.getD i 0 = 0 then buf.set i 32 else buf)

/-- Model of `print_pid_cmdline`. `buf0` is the indeterminate initial content of
the automatic array `buf[p_max_size]`. -/
def print_pid_cmdline (fs : Procfs) (s : List Nat) (buf0 : List Nat) (p_max_size : Nat) :
    PrintResult :=
  match fs.fopen s with
  | some content =>
    let bytes_read := min content.length p_max_size
    let buf := content.take bytes_read ++ buf0.drop bytes_read
    let buf := cmdline_loop (bytes_read - 1) 0 buf
    ⟨snprintf 0 p_max_size (cstr buf), []⟩
  | none => ⟨[], [Diag.READERR s]⟩

/-! ## `print_pid_cwd`, `print_pid_readlink` -/

/-- Content of a zero-filled `buf[p_max_size]` after `readlink(path, buf, p_max_size)`
delivered `target`: at most `p_max_size` bytes, no terminator added. -/
def readlink_buf (target : List Nat) (p_max_size : Nat) : List Nat :=
  target.take p_max_size ++ List.replicate (p_max_size - target.length) 0

/-- Model of `print_pid_cwd`. -/
def print_pid_cwd (fs : Procfs) (s : List Nat) (p_max_size : Nat) : PrintResult :=
  match fs.readlink s with
  | some target => ⟨snprintf 0 p_max_size (cstr (readlink_buf target p_max_size)), []⟩
  | none => ⟨[], [Diag.READERR s]⟩

/-- Model of `print_pid_readlink`. -/
def print_pid_readlink (fs : Procfs) (s : List Nat) (p_max_size : Nat) : PrintResult :=
  match fs.readlink s with
  | some target => ⟨snprintf 0 p_max_size (cstr (readlink_buf target p_max_size)), []⟩
  | none => ⟨[], [Diag.READERR s]⟩

/-- Model of `print_pid_chroot`. -/
def print_pid_chroot (fs : Procfs) (s : List Nat) (p_max_size : Nat) : PrintResult :=
  print_pid_readlink fs s p_max_size

/-- Model of `print_pid_exe`. -/
def print_pid_exe (fs : Procfs) (s : List Nat) (p_max_size : Nat) : PrintResult :=
  print_pid_readlink fs s p_max_size

/-- Model of `print_pid_stderr`. -/
def print_pid_stderr (fs : Procfs) (s : List Nat) (p_max_size : Nat) : PrintResult :=
  print_pid_readlink fs s p_max_size

/-- Model of `print_pid_stdin`. -/
def print_pid_stdin (fs : Procfs) (s : List Nat) (p_max_size : Nat) : PrintResult :=
  print_pid_readlink fs s p_max_size

/-- Model of `print_pid_stdout`. -/
def print_pid_stdout (fs : Procfs) (s : List Nat) (p_max_size : Nat) : PrintResult :=
  print_pid_readlink fs s p_max_size

/-! ## `print_pid_environ` -/

/-- The scan-time state of the environment query (`struct environ_data`). -/
structure environ_data where
  var : List Nat
  file : List Nat
  deriving DecidableEq, Repr

/-- The format built by `strcpy` and `strcat`: the variable name followed by
`=%[\1-\255]`; `\255` is an octal escape, the byte 173. -/
def environ_searchstring (var : List Nat) : List Nat :=
  cstr var ++ [61, 37, 91, 1, 45, 173, 93]

/-- Stores into `p` made by one `sscanf(..., searchstring, p)`: the first
assigned string and its terminator. -/
def scanStores (out : ScanOut) : List (Int × Nat) :=
  match out.args with
  | Arg.str v :: _ => storeAt 0 (v ++ [0])
  | _ => []

/-- The record loop of `print_pid_environ`. Result: the stores into `p` and
whether the routine returned from inside the loop. `none`: format outside
the embedding. -/
def environ_loop : Nat → List Nat → List Nat → Nat → Nat → Option (List (Int × Nat) × Bool)
  | 0, _, _, _, _ => none
  | fuel + 1, buf, searchstring, bytes_read, total_read =>
    if bytes_read < total_read then
      match sscanf 1 (buf.drop bytes_read) searchstring with
      | none => none
      | some out =>
        if out.ret = 1 then some (scanStores out, true)
        else
          (environ_loop fuel buf searchstring
            (bytes_read + (cstrAt buf bytes_read).length + 1) total_read).map
            (fun r => (scanStores out ++ r.1, r.2))
    else some ([], false)

/-- Model of `print_pid_environ`. -/
def print_pid_environ (fs : Procfs) (ed : environ_data) (p_max_size : Nat) :
    Option PrintResult :=
  match fs.fopen ed.file with
  | some content =>
    let data := readAll content p_max_size
    let total_read := data.length
    let buf := data ++ [0]
    match environ_loop (total_read + 1) buf (environ_searchstring ed.var) 0 total_read with
    | none => none
    | some (ws, true) => some ⟨ws, []⟩
    | some (ws, false) => some ⟨ws ++ [(0, 0)], []⟩
  | none => some ⟨[], [Diag.READERR ed.file]⟩

/-! ## `print_pid_environ_list` -/

/-- State of the compaction loop of `print_pid_environ_list`: the read buffer,
the write index `i`, and the indices of all stores made into `buf`. -/
structure ListRun where
  buf : List Nat
  bytes_read : Nat
  i : Int
  stores : List Int
  deriving DecidableEq, Repr

/-- The `while (bytes_read < total_read)` loop of `print_pid_environ_list`.
`none`: `strlen(buf)` finds no terminator inside the modelled buffer. -/
def environ_list_loop : Nat → Nat → ListRun → Option ListRun
  | 0, _, _ => none
  | fuel + 1, total_read, st =>
    if st.bytes_read < total_read then
      let buf2 := cstrAt st.buf st.bytes_read
      let bytes_read := st.bytes_read + buf2.length + 1
      match sscanf 1 buf2 [37, 91, 94, 61, 93] with
      | none => none
      | some out =>
        let ws := match out.args with
          | Arg.str k :: _ => storeAt st.i (k ++ [0])
          | _ => []
        let buf := applyWrites st.buf ws
        if buf.contains 0 then
          let i : Int := (cstr buf).length + 1
          environ_list_loop fuel total_read
            ⟨poke buf (i - 1, 59), bytes_read, i, st.stores ++ ws.map Prod.fst ++ [i - 1]⟩
        else none
    else some st

/-- The read buffer after the loop and the final `buf[i-1] = 0`. -/
def environ_list_run (content : List Nat) (p_max_size : Nat) : Option ListRun :=
  let data := readAll content p_max_size
  (environ_list_loop (data.length + 1) data.length ⟨data ++ [0], 0, 0, []⟩).map
    (fun st => { st with buf := poke st.buf (st.i - 1, 0), stores := st.stores ++ [st.i - 1] })

/-- Model of `print_pid_environ_list`. -/
def print_pid_environ_list (fs : Procfs) (s : List Nat) (p_max_size : Nat) :
    Option PrintResult :=
  match fs.fopen s with
  | some content =>
    (environ_list_run content p_max_size).map
      (fun st => ⟨snprintf 0 p_max_size (cstr st.buf), []⟩)
  | none => some ⟨[], [Diag.READERR s]⟩

/-! ## `print_pid_state` -/

/-- The marker `"State:\t"`. -/
def STATE_ENTRY : List Nat := [83, 116, 97, 116, 101, 58, 9]

/-- Index of the first occurrence of `needle` in a NUL-free text (`strstr`). -/
def strstr : List Nat → List Nat → Option Nat
  | [], needle => if needle.isEmpty then some 0 else none
  | h :: t, needle =>
    if needle.isPrefixOf (h :: t) then some 0 else (strstr t needle).map (fun k => k + 1)

/-- Index of the first occurrence of the byte `c` in a NUL-free text (`strchr`). -/
def strchr : List Nat → Nat → Option Nat
  | [], _ => none
  | h :: t, c => if h = c then some 0 else (strchr t c).map (fun k => k + 1)

/-- Model of `print_pid_state`. `junk` stands for the indeterminate bytes that
follow the terminator `buf[total_read]` in memory. -/
def print_pid_state (fs : Procfs) (s : List Nat) (junk : List Nat) (p_max_size : Nat) :
    PrintResult :=
  match fs.fopen s with
  | some content =>
    let data := readAll content p_max_size
    let buf := data ++ [0] ++ junk
    match strstr (cstr buf) STATE_ENTRY with
    | some k =>
      let begin := k + STATE_ENTRY.length + 3
      let buf := match strchr (cstrAt buf begin) 10 with
        | some e => poke buf ((begin : Int) + e - 1, 0)
        | none => buf
      ⟨snprintf 0 p_max_size (cstrAt buf begin), []⟩
    | none => ⟨[], [Diag.STATENOTFOUND s]⟩
  | none => ⟨[], [Diag.READERR s]⟩

/-! ## `print_pid_openfiles` -/

/-- The singly linked list `struct ll_string`, front first; `NULL` is `[]`. -/
abbrev ll_string := List (List Nat)

/-- Model of `addnode`: the list whose last node is `end` gets a new last node
holding a copy of `string`. -/
def addnode (list : ll_string) (string : List Nat) : ll_string :=
  list ++ [cstr string]

/-- Model of `inlist`. -/
def inlist : ll_string → List Nat → Nat
  | [], _ => 0
  | current :: next, string => if current = cstr string then 1 else inlist next string

/-- Loop state of `print_pid_openfiles`: the string list, `totallength`, the
stores into `p` and the indices of the stores `buf[length] = 0`. -/
structure OpenState where
  files : List (List Nat)
  totallength : Int
  writes : List (Int × Nat)
  bufStores : List Int
  deriving DecidableEq, Repr

/-- One round of the `readdir` loop of `print_pid_openfiles` for the entry `d_name`. -/
def openfiles_step (fs : Procfs) (s : List Nat) (p_max_size : Nat) (st : OpenState)
    (d_name : List Nat) : OpenState :=
  if (cstr d_name).head? ≠ some 46 then
    let path := (cstr s ++ [47] ++ cstr d_name).take (p_max_size - 1)
    let length : Int := match fs.readlink path with
      | some target => (min target.length p_max_size : Nat)
      | none => -1
    let buf := match fs.readlink path with
      | some target => target.take p_max_size ++ [0]
      | none => path ++ [0]
    if inlist st.files buf = 0 then
      { files := addnode st.files buf
        totallength := st.totallength + length + 2
        writes := st.writes ++
          snprintf st.totallength ((p_max_size : Int) - st.totallength) (cstr buf ++ [59, 32])
        bufStores := st.bufStores ++ [length] }
    else { st with bufStores := st.bufStores ++ [length] }
  else st

/-- Model of `print_pid_openfiles`. -/
def print_pid_openfiles (fs : Procfs) (s : List Nat) (p_max_size : Nat) : PrintResult :=
  match fs.opendir s with
  | some entries =>
    let st := entries.foldl (openfiles_step fs s p_max_size) ⟨[], 0, [], []⟩
    ⟨st.writes ++ [(st.totallength - 2, 0)], []⟩
  | none => ⟨[(0, 0)], []⟩

/-! ## `scan_pid_arg` -/

/-- Decimal digits of a natural number, most significant first. -/
def decimalAux : Nat → Nat → List Nat → List Nat
  | 0, _, acc => acc
  | fuel + 1, n, acc =>
    if n < 10 then (48 + n) :: acc else decimalAux fuel (n / 10) ((48 + n % 10) :: acc)

/-- Text produced by `%d` for a non-negative value. -/
def decimal (n : Nat) : List Nat := decimalAux (n + 1) n []

/-- Text produced by the `%d` conversion of `asprintf`. -/
def printf_d (v : Int) : List Nat :=
  if v < 0 then 45 :: decimal v.natAbs else decimal v.natAbs

/-- Outcome of a scan routine: the state stored in the text object, or the
fatal `CRIT_ERR` whose usage message names the attribute. -/
inductive ScanResult (α : Type) where
  | stored (data : α)
  | CRIT_ERR (usage : List Nat)
  deriving DecidableEq, Repr

/-- Model of `scan_pid_arg`; `PROCDIR` is the pseudo-filesystem root, a macro of
a header. -/
def scan_pid_arg (PROCDIR : List Nat) (arg file : List Nat) : Option (ScanResult (List Nat)) :=
  (sscanf 1 arg [37, 100]).map (fun out =>
    match out.ret, out.args with
    | 1, [Arg.int pid] => ScanResult.stored (PROCDIR ++ [47] ++ printf_d pid ++ [47] ++ cstr file)
    | _, _ => ScanResult.CRIT_ERR (cstr file))

/-- Model of `scan_pid_cmdline_arg`. -/
def scan_pid_cmdline_arg (PROCDIR arg : List Nat) : Option (ScanResult (List Nat)) :=
  scan_pid_arg PROCDIR arg [99, 109, 100, 108, 105, 110, 101]

/-- Model of `scan_pid_cwd_arg`. -/
def scan_pid_cwd_arg (PROCDIR arg : List Nat) : Option (ScanResult (List Nat)) :=
  scan_pid_arg PROCDIR arg [99, 119, 100]

/-- Model of `scan_pid_environ_list_arg`. -/
def scan_pid_environ_list_arg (PROCDIR arg : List Nat) : Option (ScanResult (List Nat)) :=
  scan_pid_arg PROCDIR arg [101, 110, 118, 105, 114, 111, 110]

/-- Model of `scan_pid_exe_arg`. -/
def scan_pid_exe_arg (PROCDIR arg : List Nat) : Option (ScanResult (List Nat)) :=
  scan_pid_arg PROCDIR arg [101, 120, 101]

/-- Model of `scan_pid_chroot_arg`. -/
def scan_pid_chroot_arg (PROCDIR arg : List Nat) : Option (ScanResult (List Nat)) :=
  scan_pid_arg PROCDIR arg [114, 111, 111, 116]

/-- Model of `scan_pid_state_arg`. -/
def scan_pid_state_arg (PROCDIR arg : List Nat) : Option (ScanResult (List Nat)) :=
  scan_pid_arg PROCDIR arg [115, 116, 97, 116, 117, 115]

/-- Model of `scan_pid_stderr_arg`. -/
def scan_pid_stderr_arg (PROCDIR arg : List Nat) : Option (ScanResult (List Nat)) :=
  scan_pid_arg PROCDIR arg [102, 100, 47, 50]

/-- Model of `scan_pid_stdin_arg`. -/
def scan_pid_stdin_arg (PROCDIR arg : List Nat) : Option (ScanResult (List Nat)) :=
  scan_pid_arg PROCDIR arg [102, 100, 47, 48]

/-- Model of `scan_pid_stdout_arg`. -/
def scan_pid_stdout_arg (PROCDIR arg : List Nat) : Option (ScanResult (List Nat)) :=
  scan_pid_arg PROCDIR arg [102, 100, 47, 49]

/-- Model of `scan_pid_openfiles_arg`. -/
def scan_pid_openfiles_arg (PROCDIR arg : List Nat) : Option (ScanResult (List Nat)) :=
  scan_pid_arg PROCDIR arg [102, 100]

/-- Model of `scan_pid_environ_arg`. -/
def scan_pid_environ_arg (PROCDIR arg : List Nat) : Option (ScanResult environ_data) :=
  (sscanf 2 arg [37, 100, 32, 37, 115]).map (fun out =>
    match out.ret, out.args with
    | 2, [Arg.int pid, Arg.str var] =>
      ScanResult.stored
        ⟨var.map toupper, PROCDIR ++ [47] ++ printf_d pid ++ [47, 101, 110, 118, 105, 114, 111, 110]⟩
    | _, _ => ScanResult.CRIT_ERR [101, 110, 118, 105, 114, 111, 110])

/-! ## Records of a NUL-delimited block -/

/-- Records of a NUL-delimited block from the current position on: a record
runs up to the next NUL or to the end of the block. -/
def recordsFrom : Nat → List Nat → List (List Nat)
  | 0, _ => []
  | fuel + 1, rest =>
    if rest.isEmpty then [] else cstr rest :: recordsFrom fuel (rest.drop ((cstr rest).length + 1))

/-- Records of a NUL-delimited block, in file order. -/
def records (block : List Nat) : List (List Nat) := recordsFrom block.length block

/-- Key of a record: the part before its first `=`. -/
def recKey (r : List Nat) : List Nat := r.takeWhile (fun b => b != 61)

/-- Value of a record: the part after its first `=`. -/
def recValue (r : List Nat) : List Nat := (r.dropWhile (fun b => b != 61)).drop 1

/-- The record has the form `KEY=VALUE` with the given key. -/
def hasKey (r name : List Nat) : Bool := r.contains 61 && recKey r == name

/-- A variable name that the search format takes literally: no NUL, no white
space, no `%` and no `=`. -/
def PlainName (name : List Nat) : Prop :=
  ∀ c ∈ name, c ≠ 0 ∧ c ≠ 37 ∧ c ≠ 61 ∧ isspace c = false

instance (name : List Nat) : Decidable (PlainName name) := by
  unfold PlainName; infer_instance

/-- The scanset of the search format: the bytes 1..173. -/
def inRange (c : Nat) : Bool := 1 ≤ c && c ≤ 173

/-- Value that `print_pid_environ` extracts from one record, if the record
matches the search format. -/
def environ_match (name r : List Nat) : Option (List Nat) :=
  if hasKey r name ∧ ((recValue r).takeWhile inRange).isEmpty = false then
    some ((recValue r).takeWhile inRange)
  else none

/-- Directive list of the search format. -/
def environ_directives (name : List Nat) : List Directive :=
  (name ++ [61]).map Directive.lit ++ [Directive.set false [(1, 1), (1, 172), (173, 173)]]

/-- Result of the record loop in terms of the records of the block. -/
def environ_outcome (name : List Nat) (recs : List (List Nat)) : List (Int × Nat) × Bool :=
  match recs.findSome? (environ_match name) with
  | some m => (storeAt 0 (m ++ [0]), true)
  | none => ([], false)

/-- Keys of the records, each followed by `;`, as the compaction loop of
`print_pid_environ_list` lays them out at the start of the read buffer. -/
def keysJoin (recs : List (List Nat)) : List Nat :=
  (recs.map (fun r => recKey r ++ [59])).flatten

/-! ## Readings of the specification -/

/-- Reading of the specification of the environment value: the value of the
first record, in file order, whose key equals the name; empty when there is
none. -/
def spec_environ_value (block name : List Nat) : List Nat :=
  match (records block).find? (fun r => hasKey r name) with
  | some r => recValue r
  | none => []

/-- Reading of the specification of the key list: the keys of the records in
file order, joined with `"; "`. -/
def spec_key_list (block : List Nat) : List Nat :=
  [59, 32].intercalate ((records block).map recKey)

/-- A pseudo-filesystem in which only the file `path` exists, with the given content. -/
def oneFile (path content : List Nat) : Procfs :=
  ⟨fun q => if q = path then some content else none, fun _ => none, fun _ => none⟩

/-! ## Open files: the distinct targets -/

/-- The directory entry is an open-file entry: its name does not begin with `.`. -/
def nonDot (d_name : List Nat) : Bool := (cstr d_name).head? != some 46

/-- The distinct members of a list, in order of first occurrence. -/
def firstOcc : List (List Nat) → List (List Nat)
  | [] => []
  | t :: ts => t :: (firstOcc ts).filter (fun x => x != t)

/-- The texts, each followed by `"; "`. -/
def sepJoin (D : List (List Nat)) : List Nat :=
  (D.map (fun d => d ++ [59, 32])).flatten

/-- Loop invariant of `print_pid_openfiles` once the entries with the targets
`L` have been handled: the string list holds the distinct targets, and
`totallength` and the output buffer agree with the targets written so far. -/
def OpenInv (cap : Nat) (prior : List Nat) (st : OpenState) (L : List (List Nat)) : Prop :=
  st.files = firstOcc L ∧ st.totallength = ((sepJoin (firstOcc L)).length : Int) ∧
  (sepJoin (firstOcc L)).take (cap - 1) <+: applyWrites prior st.writes

/-- A pseudo-filesystem with one descriptor directory: the entries `.`, `..`,
`0`, `1`, `2`; the links `0` and `1` lead to `/n`, the link `2` to `/x`. -/
def demoFd : Procfs :=
  ⟨fun _ => none,
   fun q => if q = [47, 102, 100, 47, 50] then some [47, 120] else some [47, 110],
   fun _ => some [[46], [46, 46], [48], [49], [50]]⟩

/-- A pseudo-filesystem in which nothing can be opened or resolved. -/
def noFile : Procfs := ⟨fun _ => none, fun _ => none, fun _ => none⟩

/-- The text is an unsigned decimal numeral in canonical form (digits only, no
leading zero except for `0` itself) whose value fits an `int`. -/
def isCanonical (pid : List Nat) : Prop :=
  pid ≠ [] ∧ (∀ c ∈ pid, isdigit c = true) ∧ (pid.head? = some 48 → pid = [48]) ∧
    digitsVal pid < 2 ^ 31

instance (pid : List Nat) : Decidable (isCanonical pid) := by
  unfold isCanonical; infer_instance

/-- The argument starts, after optional white space and an optional sign, with
a decimal digit: the `%d` conversion succeeds. -/
def leadingInt (arg : List Nat) : Bool :=
  match (cstr arg).dropWhile isspace with
  | [] => false
  | x :: xs => ((if x = 43 ∨ x = 45 then xs else x :: xs).head?.map isdigit).getD false

/-- A pseudo-filesystem in which only the link `path` exists, leading to `target`. -/
def oneLink (path target : List Nat) : Procfs :=
  ⟨fun _ => none, fun q => if q = path then some target else none, fun _ => none⟩

/-- A pseudo-filesystem whose descriptor directory holds only `.` and `..`. -/
def emptyFd : Procfs :=
  ⟨fun _ => none, fun _ => none, fun _ => some [[46], [46, 46]]⟩

/-- The byte is a letter, a digit or an underscore. -/
def isNameChar (c : Nat) : Bool :=
  (65 ≤ c && c ≤ 90) || (97 ≤ c && c ≤ 122) || (48 ≤ c && c ≤ 57) || c == 95

/-- The byte is a lower-case letter. -/
def islower (c : Nat) : Bool := 97 ≤ c && c ≤ 122

/-! ## The string list at the level of nodes and addresses -/

/-- A `struct ll_string` in memory: the copied string and the `next` pointer
(an address, or `none` for `NULL`). The address of a node is its index in
the heap. -/
structure ll_node where
  string : List Nat
  next : Option Nat
  deriving DecidableEq, Repr

/-- The store `end->next = current` into the node at address `e`. -/
def setNext : List ll_node → Nat → Option Nat → List ll_node
  | [], _, _ => []
  | n :: t, 0, nx => { n with next := nx } :: t
  | n :: t, e + 1, nx => n :: setNext t e nx

/-- Model of `addnode` on the heap: `malloc` yields the fresh address
`heap.length`, the new node holds a copy of `string` and `NULL`, and the node
`end`, when not `NULL`, is linked to it. Returns the heap and `current`. -/
def ll_addnode (heap : List ll_node) (end_ : Option Nat) (string : List Nat) :
    List ll_node × Nat :=
  let current := heap.length
  let heap1 := heap ++ [⟨cstr string, none⟩]
  match end_ with
  | some e => (setNext heap1 e (some current), current)
  | none => (heap1, current)

/-- Model of `inlist` on the heap: the `for` loop follows `next` from `current`;
the fuel bounds the number of nodes visited. -/
def ll_inlist_from : Nat → List ll_node → Option Nat → List Nat → Nat
  | 0, _, _, _ => 0
  | _ + 1, _, none, _ => 0
  | fuel + 1, heap, some a, string =>
    match heap[a]? with
    | none => 0
    | some node =>
      if node.string = cstr string then 1 else ll_inlist_from fuel heap node.next string

/-- Model of `inlist(front, string)` on the heap. -/
def ll_inlist (heap : List ll_node) (front : Option Nat) (string : List Nat) : Nat :=
  ll_inlist_from (heap.length + 1) heap front string

/-- The strings met when following `next` from `current`. -/
def ll_strings : Nat → List ll_node → Option Nat → List (List Nat)
  | 0, _, _ => []
  | _ + 1, _, none => []
  | fuel + 1, heap, some a =>
    match heap[a]? with
    | none => []
    | some node => node.string :: ll_strings fuel heap node.next

/-- Heap and the two list pointers of `print_pid_openfiles`. -/
structure ll_state where
  heap : List ll_node
  files_front : Option Nat
  files_back : Option Nat
  deriving DecidableEq, Repr

/-- One append as `print_pid_openfiles` does it: `files_back = addnode(files_back, buf)`
and then `if (files_front == NULL) files_front = files_back`. -/
def ll_append (st : ll_state) (string : List Nat) : ll_state :=
  let r := ll_addnode st.heap st.files_back string
  ⟨r.1, if st.files_front = none then some r.2 else st.files_front, some r.2⟩

/-- The list after appending the strings in order, starting from the empty list. -/
def ll_build (strs : List (List Nat)) : ll_state :=
  strs.foldl ll_append ⟨[], none, none⟩

/-- Nodes of a list laid out at consecutive addresses from `k` on. -/
def chainFrom : Nat → List (List Nat) → List ll_node
  | _, [] => []
  | _, [x] => [⟨x, none⟩]
  | k, x :: y :: t => ⟨x, some (k + 1)⟩ :: chainFrom (k + 1) (y :: t)

/-! ## The compaction loop of `print_pid_environ_list`, round by round -/

/-- One round of the `while` loop of `print_pid_environ_list`: its body. -/
def environ_list_iter (st : ListRun) : Option ListRun :=
  let buf2 := cstrAt st.buf st.bytes_read
  let bytes_read := st.bytes_read + buf2.length + 1
  match sscanf 1 buf2 [37, 91, 94, 61, 93] with
  | none => none
  | some out =>
    let ws := match out.args with
      | Arg.str k :: _ => storeAt st.i (k ++ [0])
      | _ => []
    let buf := applyWrites st.buf ws
    if buf.contains 0 then
      let i : Int := (cstr buf).length + 1
      some ⟨poke buf (i - 1, 59), bytes_read, i, st.stores ++ ws.map Prod.fst ++ [i - 1]⟩
    else none

/-- State of the loop after `n` rounds; `none` when the loop has ended before
that, or a round is undefined. -/
def environ_list_after (total_read : Nat) : Nat → ListRun → Option ListRun
  | 0, st => some st
  | n + 1, st =>
    if st.bytes_read < total_read then
      (environ_list_iter st).bind (environ_list_after total_read n)
    else none

/-- Invariant of the compaction loop for the file content `content`: the buffer
keeps its length, the part from `bytes_read` on is still as read, the write
index is not beyond `bytes_read`, no NUL lies below the write index, and all
stores so far were made below `bytes_read`. -/
def CompactInv (content : List Nat) (st : ListRun) : Prop :=
  st.buf.length = content.length + 1 ∧
  st.buf.drop st.bytes_read = (content ++ [0]).drop st.bytes_read ∧
  st.bytes_read ≤ content.length + 1 ∧
  0 ≤ st.i ∧ st.i ≤ st.bytes_read ∧
  0 ∉ st.buf.take st.i.toNat ∧
  (st.bytes_read = 0 ∨ 1 ≤ st.i) ∧
  ∀ k ∈ st.stores, 0 ≤ k ∧ k < (st.bytes_read : Int)

/-! ## Lemmas -/

theorem readLoop_eq (fuel cap : Nat) (hcap : 0 < cap) :
    ∀ (rest acc : List Nat), rest.length < fuel →
      readLoop fuel cap rest acc = (acc ++ rest, 0) := by
  induction fuel with
  | zero => intro rest acc h; omega
  | succ n ih =>
    intro rest acc h
    unfold readLoop
    cases rest with
    | nil => simp
    | cons x xs =>
      have hne : ((x :: xs).take cap).length ≠ 0 := by
        simp [List.length_take]; omega
      simp only [bne_iff_ne, ne_eq, hne, not_false_eq_true, if_true]
      rw [ih]
      · simp [List.append_assoc]
      · simp [List.length_drop] at h ⊢; omega

theorem readAll_eq (content : List Nat) (cap : Nat) (hcap : 0 < cap) :
    readAll content cap = content := by
  unfold readAll
  rw [readLoop_eq _ _ hcap _ _ (Nat.lt_succ_self _)]
  simp

theorem cstr_append_nul (r t : List Nat) (h : 0 ∉ r) : cstr (r ++ 0 :: t) = r := by
  unfold cstr
  induction r with
  | nil => simp
  | cons x xs ih =>
    have hx : x ≠ 0 := fun e => h (by simp [e])
    have hxs : 0 ∉ xs := fun e => h (by simp [e])
    simp [List.takeWhile_cons, hx, ih hxs]

theorem cstr_of_nulfree (r : List Nat) (h : 0 ∉ r) : cstr r = r := by
  unfold cstr
  rw [List.takeWhile_eq_self_iff]
  intro x hx
  simp only [bne_iff_ne, ne_eq]
  intro e
  exact h (e ▸ hx)

theorem cstr_nulfree (m : List Nat) : 0 ∉ cstr m := by
  unfold cstr
  intro h
  have := List.mem_takeWhile_imp h
  simp at this

theorem recKey_append (name v : List Nat) (h : 61 ∉ name) : recKey (name ++ 61 :: v) = name := by
  unfold recKey
  induction name with
  | nil => simp
  | cons x xs ih =>
    have hx : x ≠ 61 := fun e => h (by simp [e])
    have hxs : 61 ∉ xs := fun e => h (by simp [e])
    simp [List.takeWhile_cons, hx, ih hxs]

theorem recValue_append (name v : List Nat) (h : 61 ∉ name) : recValue (name ++ 61 :: v) = v := by
  unfold recValue
  induction name with
  | nil => simp
  | cons x xs ih =>
    have hx : x ≠ 61 := fun e => h (by simp [e])
    have hxs : 61 ∉ xs := fun e => h (by simp [e])
    simp [List.dropWhile_cons, hx]
    simpa using ih hxs

theorem rec_split (r : List Nat) (h : r.contains 61 = true) :
    r = recKey r ++ 61 :: recValue r := by
  unfold recKey recValue
  induction r with
  | nil => simp at h
  | cons x xs ih =>
    by_cases hx : x = 61
    · subst hx; simp
    · have : xs.contains 61 = true := by
        simp at h ⊢
        rcases h with h | h
        · exact absurd h.symm hx
        · exact h
      simp [List.takeWhile_cons, List.dropWhile_cons, hx]
      simpa using ih this

theorem hasKey_iff (r name : List Nat) (h : 61 ∉ name) :
    hasKey r name = true ↔ r = name ++ 61 :: recValue r := by
  unfold hasKey
  constructor
  · intro hk
    simp only [Bool.and_eq_true, beq_iff_eq] at hk
    have := rec_split r hk.1
    rw [hk.2] at this
    exact this
  · intro hr
    have hk : recKey r = name := by rw [hr]; exact recKey_append _ _ h
    have hc : r.contains 61 = true := by rw [hr]; simp
    simp only [hk, hc, beq_self_eq_true, Bool.and_self]

theorem plain_no_eq (name : List Nat) (h : PlainName name) : 61 ∉ name :=
  fun hm => (h 61 hm).2.2.1 rfl

theorem plain_no_nul (name : List Nat) (h : PlainName name) : 0 ∉ name :=
  fun hm => (h 0 hm).1 rfl

theorem parseFormat_cons_lit (n c : Nat) (rest : List Nat) (h1 : c ≠ 37)
    (h2 : isspace c = false) :
    parseFormat (n + 1) (c :: rest) =
      (parseFormat n rest).map (List.cons (Directive.lit c)) := by
  simp [parseFormat, h1, h2]

theorem parseFormat_lits (name suffix : List Nat) (fuel : Nat)
    (h : ∀ c ∈ name, c ≠ 37 ∧ isspace c = false) :
    parseFormat (fuel + name.length) (name ++ suffix) =
      (parseFormat fuel suffix).map (fun ds => name.map Directive.lit ++ ds) := by
  induction name with
  | nil => simp
  | cons x xs ih =>
    have hx := h x (by simp)
    have hxs : ∀ c ∈ xs, c ≠ 37 ∧ isspace c = false := fun c hc => h c (by simp [hc])
    have e : fuel + (x :: xs).length = (fuel + xs.length) + 1 := by simp; omega
    rw [e, List.cons_append]
    rw [parseFormat_cons_lit _ _ _ hx.1 hx.2, ih hxs]
    cases parseFormat fuel suffix <;> simp

theorem conversions_lits (l : List Nat) (ds : List Directive) :
    conversions (l.map Directive.lit ++ ds) = conversions ds := by
  unfold conversions
  induction l with
  | nil => simp
  | cons x xs ih =>
    simp only [List.map_cons, List.cons_append, List.filter_cons]
    simp

theorem scanRun_lits (l rest : List Nat) (ds : List Directive) (acc : List Arg) :
    scanRun (l.map Directive.lit ++ ds) (l ++ rest) acc = scanRun ds rest acc := by
  induction l with
  | nil => simp
  | cons x xs ih => simp [scanRun, ih]

theorem scanRun_lits_fail (l : List Nat) (ds : List Directive) :
    ∀ inp : List Nat, ¬ l <+: inp →
      (scanRun (l.map Directive.lit ++ ds) inp []).ret ≠ 1 ∧
      (scanRun (l.map Directive.lit ++ ds) inp []).args = [] := by
  induction l with
  | nil => intro inp h; exact absurd (List.nil_prefix) h
  | cons c cs ih =>
    intro inp h
    cases inp with
    | nil => simp [scanRun, inputFailure]
    | cons x xs =>
      by_cases hx : x = c
      · subst hx
        have : ¬ cs <+: xs := fun hp => h ((List.prefix_cons_inj x).2 hp)
        simpa [scanRun] using ih xs this
      · simp [scanRun, hx, scanStop]

theorem inSet_range (c : Nat) : inSet false [(1, 1), (1, 172), (173, 173)] c = inRange c := by
  unfold inSet inRange
  simp only [List.any_cons, List.any_nil, Bool.or_false, Bool.false_xor]
  rw [Bool.eq_iff_iff]
  simp only [Bool.or_eq_true, Bool.and_eq_true, decide_eq_true_eq]
  omega

theorem parse_searchstring (name : List Nat) (h : PlainName name) :
    parseFormat ((environ_searchstring name).length + 1) (cstr (environ_searchstring name)) =
      some (environ_directives name) := by
  have hn : cstr name = name := cstr_of_nulfree name (plain_no_nul name h)
  have h0 : 0 ∉ environ_searchstring name := by
    unfold environ_searchstring
    rw [hn]
    intro hm
    rcases List.mem_append.1 hm with hm | hm
    · exact plain_no_nul name h hm
    · simp at hm
  rw [cstr_of_nulfree _ h0]
  unfold environ_searchstring
  rw [hn]
  have e : (name ++ [61, 37, 91, 1, 45, 173, 93]).length + 1 = 8 + name.length := by
    simp; omega
  rw [e, parseFormat_lits name _ 8 (fun c hc => ⟨(h c hc).2.1, (h c hc).2.2.2⟩)]
  have : parseFormat 8 [61, 37, 91, 1, 45, 173, 93] =
      some [Directive.lit 61, Directive.set false [(1, 1), (1, 172), (173, 173)]] := by decide
  rw [this]
  simp [environ_directives]

theorem scanRun_set_range (v : List Nat) :
    scanRun [Directive.set false [(1, 1), (1, 172), (173, 173)]] v [] =
      if (v.takeWhile inRange).isEmpty then
        (if v.isEmpty then inputFailure [] else scanStop [])
      else scanStop [Arg.str (v.takeWhile inRange)] := by
  have hf : inSet false [(1, 1), (1, 172), (173, 173)] = inRange := funext inSet_range
  cases v with
  | nil => simp [scanRun]
  | cons x xs =>
    simp only [scanRun]
    rw [hf]
    by_cases hx : inRange x = true
    · simp [hx, List.takeWhile_cons]
    · simp [hx, List.takeWhile_cons]

theorem scanRun_environ (name r : List Nat) (hp : PlainName name) :
    (environ_match name r = none ∧
      (scanRun (environ_directives name) r []).ret ≠ 1 ∧
      (scanRun (environ_directives name) r []).args = []) ∨
    (∃ m, environ_match name r = some m ∧
      scanRun (environ_directives name) r [] = ⟨1, [Arg.str m]⟩) := by
  have h61 := plain_no_eq name hp
  unfold environ_directives
  by_cases hk : hasKey r name = true
  · have hr := (hasKey_iff r name h61).1 hk
    have hr2 : r = (name ++ [61]) ++ recValue r := by simpa using hr
    generalize recValue r = v at hr hr2
    have hv : recValue r = v := by rw [hr]; exact recValue_append _ _ h61
    rw [hr2, scanRun_lits, scanRun_set_range, ← hr2]
    unfold environ_match
    rw [hv]
    by_cases he : (v.takeWhile inRange).isEmpty = true
    · left
      simp only [hk, he, Bool.true_eq_false, and_false, if_false, if_true, true_and]
      cases v <;> simp [inputFailure, scanStop]
    · right
      refine ⟨v.takeWhile inRange, ?_, ?_⟩
      · simp [hk, he]
      · simp [he, scanStop]
  · left
    have hnp : ¬ (name ++ [61]) <+: r := by
      intro hpre
      obtain ⟨v, hv⟩ := hpre
      apply hk
      rw [hasKey_iff r name h61]
      have : r = name ++ 61 :: v := by simpa using hv.symm
      rw [this, recValue_append _ _ h61]
    refine ⟨?_, scanRun_lits_fail _ _ r hnp⟩
    unfold environ_match
    simp [hk]

theorem conversions_environ (name : List Nat) : conversions (environ_directives name) = 1 := by
  unfold environ_directives
  rw [conversions_lits]
  decide

theorem sscanf_environ (name inp : List Nat) (hp : PlainName name) :
    ∃ out, sscanf 1 inp (environ_searchstring name) = some out ∧
      ((environ_match name (cstr inp) = none ∧ out.ret ≠ 1 ∧ scanStores out = []) ∨
       (∃ m, environ_match name (cstr inp) = some m ∧ out.ret = 1 ∧
          scanStores out = storeAt 0 (m ++ [0]))) := by
  refine ⟨scanRun (environ_directives name) (cstr inp) [], ?_, ?_⟩
  · unfold sscanf
    rw [parse_searchstring name hp]
    simp [conversions_environ]
  · rcases scanRun_environ name (cstr inp) hp with ⟨h1, h2, h3⟩ | ⟨m, h1, h2⟩
    · left
      exact ⟨h1, h2, by simp [scanStores, h3]⟩
    · right
      exact ⟨m, h1, by rw [h2], by rw [h2]; rfl⟩

theorem cstr_append_singleton (l : List Nat) : cstr (l ++ [0]) = cstr l := by
  unfold cstr
  induction l with
  | nil => simp
  | cons x xs ih =>
    by_cases hx : x = 0
    · simp [List.takeWhile_cons, hx]
    · simp [List.takeWhile_cons, hx, ih]

theorem recordsFrom_nil (fuel : Nat) : recordsFrom fuel [] = [] := by
  cases fuel <;> simp [recordsFrom]

theorem environ_loop_eq (name block : List Nat) (hp : PlainName name) (fuel : Nat) :
    ∀ br : Nat, block.length - br ≤ fuel →
      environ_loop (fuel + 1) (block ++ [0]) (environ_searchstring name) br block.length =
        some (environ_outcome name (recordsFrom fuel (block.drop br))) := by
  induction fuel with
  | zero =>
    intro br h
    have hbr : ¬ br < block.length := by omega
    simp [environ_loop, hbr, recordsFrom, environ_outcome]
  | succ n ih =>
    intro br h
    by_cases hbr : br < block.length
    · have hdrop : (block ++ [0]).drop br = block.drop br ++ [0] := by
        rw [List.drop_append_of_le_length (Nat.le_of_lt hbr)]
      have hne : (block.drop br).isEmpty = false := by
        cases hd : block.drop br with
        | nil =>
          have := congrArg List.length hd
          simp at this; omega
        | cons _ _ => rfl
      have hc : cstr ((block ++ [0]).drop br) = cstr (block.drop br) := by
        rw [hdrop, cstr_append_singleton]
      rw [environ_loop]
      simp only [hbr, if_true]
      obtain ⟨out, ho, hcase⟩ := sscanf_environ name ((block ++ [0]).drop br) hp
      rw [ho]
      simp only
      rw [hc] at hcase
      have hrec : recordsFrom (n + 1) (block.drop br) =
          cstr (block.drop br) ::
            recordsFrom n (block.drop (br + (cstr (block.drop br)).length + 1)) := by
        rw [recordsFrom]
        simp only [hne, Bool.false_eq_true, if_false, List.drop_drop]
        congr 2
      rcases hcase with ⟨hm, hret, hst⟩ | ⟨m, hm, hret, hst⟩
      · simp only [hret, if_false]
        have hlen : cstrAt (block ++ [0]) br = cstr (block.drop br) := by
          unfold cstrAt; exact hc
        rw [hlen, ih _ (by omega), hrec, hst]
        simp [environ_outcome, List.findSome?_cons, hm]
      · simp only [hret, if_true]
        rw [hrec, hst]
        simp [environ_outcome, List.findSome?_cons, hm]
    · have hd : block.drop br = [] := List.drop_eq_nil_of_le (by omega)
      rw [environ_loop]
      simp [hbr, hd, recordsFrom_nil, environ_outcome]

/-- What `print_pid_environ` does for a plain name on a readable block. -/
theorem print_pid_environ_eq (fs : Procfs) (ed : environ_data) (cap : Nat) (block : List Nat)
    (hopen : fs.fopen ed.file = some block) (hcap : 0 < cap) (hp : PlainName ed.var) :
    print_pid_environ fs ed cap =
      some (match (records block).findSome? (environ_match ed.var) with
        | some m => ⟨storeAt 0 (m ++ [0]), []⟩
        | none => ⟨[(0, 0)], []⟩) := by
  unfold print_pid_environ
  rw [hopen]
  simp only [readAll_eq block cap hcap]
  rw [environ_loop_eq ed.var block hp block.length 0 (by omega)]
  simp only [List.drop_zero, environ_outcome]
  unfold records
  cases List.findSome? (environ_match ed.var) (recordsFrom block.length block) <;> simp

theorem applyWrites_storeAt (bytes : List Nat) :
    ∀ (m : List Nat) (k : Nat), k + bytes.length ≤ m.length →
      applyWrites m (storeAt (k : Int) bytes) = m.take k ++ bytes ++ m.drop (k + bytes.length) := by
  induction bytes with
  | nil => intro m k _; simp [storeAt, applyWrites]
  | cons b bs ih =>
    intro m k h
    simp only [List.length_cons] at h
    have hk : k < m.length := by omega
    have hs : storeAt (k : Int) (b :: bs) = ((k : Int), b) :: storeAt ((k + 1 : Nat) : Int) bs := by
      simp [storeAt]
    rw [hs]
    simp only [applyWrites, List.foldl_cons]
    have hp : poke m ((k : Int), b) = m.set k b := by simp [poke]
    rw [hp]
    have := ih (m.set k b) (k + 1) (by simp; omega)
    simp only [applyWrites] at this
    rw [this, List.set_eq_take_append_cons_drop]
    simp only [hk, if_true]
    have e1 : (m.take k ++ b :: m.drop (k + 1)).take (k + 1) = m.take k ++ [b] := by
      rw [List.take_append_eq_append_take]
      simp [List.length_take, Nat.min_eq_left (Nat.le_of_lt hk)]
    have e2 : (m.take k ++ b :: m.drop (k + 1)).drop (k + 1 + bs.length) =
        m.drop (k + (bs.length + 1)) := by
      rw [List.drop_append_eq_append_drop]
      simp [List.length_take, Nat.min_eq_left (Nat.le_of_lt hk)]
      have hz : (m.take k).drop (k + 1 + bs.length) = [] :=
        List.drop_eq_nil_of_le (by simp [List.length_take]; omega)
      rw [hz]
      have e3 : k + 1 + bs.length - k = bs.length + 1 := by omega
      rw [e3]
      simp [List.drop_drop]
      congr 1
      omega
    rw [e1, e2]
    simp

theorem outText_store (prior text : List Nat) (errs : List Diag) (h0 : 0 ∉ text)
    (hlen : text.length < prior.length) :
    outText prior ⟨storeAt 0 (text ++ [0]), errs⟩ = text := by
  unfold outText
  have := applyWrites_storeAt (text ++ [0]) prior 0 (by simp; omega)
  simp only [Nat.cast_zero] at this
  simp only [this]
  simp only [List.take_zero, List.nil_append, List.append_assoc, List.singleton_append]
  exact cstr_append_nul text _ h0

theorem set_at_length (a b : List Nat) (x y : Nat) :
    (a ++ x :: b).set a.length y = a ++ y :: b := by
  induction a with
  | nil => simp
  | cons h t ih => simp [ih]

theorem poke_at_length (a b : List Nat) (x y : Nat) (k : Int) (hk : k = a.length) :
    poke (a ++ x :: b) (k, y) = a ++ y :: b := by
  subst hk
  simp [poke, set_at_length]

theorem cstr_idem (m : List Nat) : cstr (cstr m) = cstr m :=
  cstr_of_nulfree _ (cstr_nulfree m)

theorem sscanf_key (r : List Nat) (h0 : 0 ∉ r) (hk : recKey r ≠ []) :
    sscanf 1 r [37, 91, 94, 61, 93] = some ⟨1, [Arg.str (recKey r)]⟩ := by
  have hparse : parseFormat ([37, 91, 94, 61, 93].length + 1) (cstr [37, 91, 94, 61, 93]) =
      some [Directive.set true [(61, 61)]] := by decide
  unfold sscanf
  rw [hparse, cstr_of_nulfree r h0]
  have hc : conversions [Directive.set true [(61, 61)]] = 1 := by decide
  simp only [hc, le_refl, if_true]
  have hf : inSet true [(61, 61)] = fun b => b != 61 := by
    funext c
    unfold inSet
    simp only [List.any_cons, List.any_nil, Bool.or_false, Bool.true_xor]
    rw [Bool.eq_iff_iff]
    simp only [Bool.not_eq_true', Bool.and_eq_false_iff, decide_eq_false_iff_not, bne_iff_ne, ne_eq]
    omega
  cases r with
  | nil => simp [recKey] at hk
  | cons x xs =>
    have hx : x ≠ 61 := by
      intro e
      apply hk
      simp [recKey, e]
    simp only [scanRun]
    rw [hf]
    simp [hx, recKey, scanStop]

theorem environ_list_step (fuel T br : Nat) (done gap r tl : List Nat) (stores : List Int)
    (hbr : br < T) (hlen : (done ++ gap).length = br) (hd : 0 ∉ done) (hr : 0 ∉ r)
    (hk : recKey r ≠ []) :
    ∃ stores2,
      environ_list_loop (fuel + 1) T ⟨done ++ gap ++ r ++ 0 :: tl, br, done.length, stores⟩ =
        environ_list_loop fuel T
          ⟨(done ++ recKey r ++ [59]) ++ (gap ++ r ++ [0]).drop ((recKey r).length + 1) ++ tl,
            br + r.length + 1, ((done ++ recKey r ++ [59]).length : Nat), stores2⟩ := by
  have hkn : 0 ∉ recKey r := by
    intro h
    exact hr (List.mem_takeWhile_imp h |> fun _ => (List.takeWhile_sublist _).subset h)
  have hkl : (recKey r).length ≤ r.length := (List.takeWhile_sublist _).length_le
  have hcs : cstrAt (done ++ gap ++ r ++ 0 :: tl) br = r := by
    unfold cstrAt
    have : (done ++ gap ++ r ++ 0 :: tl).drop br = r ++ 0 :: tl := by
      rw [List.append_assoc (done ++ gap), ← hlen, List.drop_left]
    rw [this, cstr_append_nul r tl hr]
  rw [environ_list_loop]
  simp only [hbr, if_true, hcs, sscanf_key r hr hk]
  have hw : applyWrites (done ++ gap ++ r ++ 0 :: tl)
      (storeAt (done.length : Int) (recKey r ++ [0])) =
      done ++ recKey r ++ 0 :: ((gap ++ r ++ [0]).drop ((recKey r).length + 1) ++ tl) := by
    rw [applyWrites_storeAt]
    · have e1 : (done ++ gap ++ r ++ 0 :: tl).take done.length = done := by
        simp [List.append_assoc, List.take_left]
      have e2 : (done ++ gap ++ r ++ 0 :: tl).drop (done.length + (recKey r ++ [0]).length) =
          (gap ++ r ++ [0]).drop ((recKey r).length + 1) ++ tl := by
        have : done ++ gap ++ r ++ 0 :: tl = done ++ ((gap ++ r ++ [0]) ++ tl) := by simp
        rw [this, ← List.drop_drop, List.drop_left]
        rw [List.drop_append_of_le_length]
        · simp
        · simp; omega
      rw [e1, e2]
      simp
    · simp at hlen ⊢; omega
  rw [hw]
  have hcont : (done ++ recKey r ++ 0 :: ((gap ++ r ++ [0]).drop ((recKey r).length + 1) ++ tl)).contains 0
      = true := by simp
  have hcstr : cstr (done ++ recKey r ++ 0 :: ((gap ++ r ++ [0]).drop ((recKey r).length + 1) ++ tl))
      = done ++ recKey r := by
    apply cstr_append_nul
    intro h
    rcases List.mem_append.1 h with h | h
    · exact hd h
    · exact hkn h
  simp only [hcont, if_true, hcstr]
  rw [poke_at_length (done ++ recKey r) _ 0 59 _ (by simp)]
  refine ⟨stores ++ List.map Prod.fst (storeAt (done.length : Int) (recKey r ++ [0])) ++
      [((done ++ recKey r).length : Int) + 1 - 1], ?_⟩
  congr 2
  · simp
  · simp only [List.length_append, List.length_singleton, Nat.cast_add, Nat.cast_one]

theorem split_first_record (l : List Nat) :
    l ++ [0] = cstr l ++ 0 :: (l ++ [0]).drop ((cstr l).length + 1) := by
  induction l with
  | nil => simp [cstr]
  | cons x xs ih =>
    by_cases hx : x = 0
    · subst hx; simp [cstr]
    · have hc : cstr (x :: xs) = x :: cstr xs := by simp [cstr, List.takeWhile_cons, hx]
      rw [hc]
      simp only [List.cons_append, List.length_cons, List.drop_succ_cons]
      congr 1

theorem recKey_nulfree (r : List Nat) (h : 0 ∉ r) : 0 ∉ recKey r :=
  fun hm => h ((List.takeWhile_sublist _).subset hm)

theorem environ_list_loop_eq (block : List Nat) (fuel : Nat) :
    ∀ (br : Nat) (done gap : List Nat) (stores : List Int),
      block.length - br ≤ fuel → (done ++ gap).length = br → 0 ∉ done →
      (∀ r ∈ recordsFrom fuel (block.drop br), recKey r ≠ []) →
      ∃ rest br2 stores2,
        environ_list_loop (fuel + 1) block.length
            ⟨done ++ gap ++ (block ++ [0]).drop br, br, done.length, stores⟩ =
          some ⟨(done ++ keysJoin (recordsFrom fuel (block.drop br))) ++ rest, br2,
            ((done ++ keysJoin (recordsFrom fuel (block.drop br))).length : Nat), stores2⟩ := by
  induction fuel with
  | zero =>
    intro br done gap stores hf _ _ _
    have hbr : ¬ br < block.length := by omega
    refine ⟨gap ++ (block ++ [0]).drop br, br, stores, ?_⟩
    simp [environ_list_loop, hbr, recordsFrom, keysJoin]
  | succ n ih =>
    intro br done gap stores hf hlen hd hkeys
    by_cases hbr : br < block.length
    · have hne : (block.drop br).isEmpty = false := by
        cases hdr : block.drop br with
        | nil =>
          have := congrArg List.length hdr
          simp at this; omega
        | cons _ _ => rfl
      have hrec : recordsFrom (n + 1) (block.drop br) =
          cstr (block.drop br) ::
            recordsFrom n (block.drop (br + (cstr (block.drop br)).length + 1)) := by
        rw [recordsFrom]
        simp only [hne, Bool.false_eq_true, if_false, List.drop_drop]
        congr 2
      have hsplit : (block ++ [0]).drop br = cstr (block.drop br) ++
          0 :: (block ++ [0]).drop (br + (cstr (block.drop br)).length + 1) := by
        have h1 : (block ++ [0]).drop br = block.drop br ++ [0] :=
          List.drop_append_of_le_length (Nat.le_of_lt hbr)
        have h2 := split_first_record (block.drop br)
        rw [← h1] at h2
        rw [List.drop_drop] at h2
        rw [Nat.add_assoc]
        exact h2
      generalize hrdef : cstr (block.drop br) = r at hrec hsplit
      have hr0 : 0 ∉ r := by rw [← hrdef]; exact cstr_nulfree _
      have hrl : r.length ≤ (block.drop br).length := by
        rw [← hrdef]; exact (List.takeWhile_sublist _).length_le
      have hk : recKey r ≠ [] := hkeys r (by rw [hrec]; simp)
      have hkl : (recKey r).length ≤ r.length := (List.takeWhile_sublist _).length_le
      rw [hsplit, ← List.append_assoc]
      obtain ⟨st2, hstep⟩ := environ_list_step (n + 1) block.length br done gap r
        ((block ++ [0]).drop (br + r.length + 1)) stores hbr hlen hd hr0 hk
      rw [hstep]
      have hd2 : 0 ∉ done ++ recKey r ++ [59] := by
        intro h
        simp only [List.mem_append, List.mem_singleton] at h
        rcases h with (h | h) | h
        · exact hd h
        · exact recKey_nulfree r hr0 h
        · omega
      have hlen2 : ((done ++ recKey r ++ [59]) ++
          (gap ++ r ++ [0]).drop ((recKey r).length + 1)).length = br + r.length + 1 := by
        simp only [List.length_append, List.length_drop, List.length_singleton,
          List.length_cons, List.length_nil] at hlen ⊢
        omega
      have hf2 : block.length - (br + r.length + 1) ≤ n := by omega
      have hkeys2 : ∀ r2 ∈ recordsFrom n (block.drop (br + r.length + 1)), recKey r2 ≠ [] :=
        fun r2 h2 => hkeys r2 (by rw [hrec]; simp [h2])
      obtain ⟨rest, br2, stores2, hfin⟩ := ih (br + r.length + 1) (done ++ recKey r ++ [59])
        ((gap ++ r ++ [0]).drop ((recKey r).length + 1)) st2 hf2 hlen2 hd2 hkeys2
      refine ⟨rest, br2, stores2, ?_⟩
      rw [hfin, hrec]
      simp [keysJoin, List.append_assoc]
    · have hdn : block.drop br = [] := List.drop_eq_nil_of_le (by omega)
      refine ⟨gap ++ (block ++ [0]).drop br, br, stores, ?_⟩
      rw [environ_list_loop]
      simp [hbr, hdn, recordsFrom_nil, keysJoin]

theorem recordsFrom_nulfree (fuel : Nat) :
    ∀ (l r : List Nat), r ∈ recordsFrom fuel l → 0 ∉ r := by
  induction fuel with
  | zero => intro l r h; simp [recordsFrom] at h
  | succ n ih =>
    intro l r h
    rw [recordsFrom] at h
    by_cases he : l.isEmpty = true
    · simp [he] at h
    · simp only [he, Bool.false_eq_true, if_false, List.mem_cons] at h
      rcases h with h | h
      · rw [h]; exact cstr_nulfree l
      · exact ih _ r h

theorem records_eq_nil (block : List Nat) (h : records block = []) : block = [] := by
  unfold records at h
  cases block with
  | nil => rfl
  | cons x xs => simp [recordsFrom] at h

theorem keysJoin_cons (r : List Nat) (rs : List (List Nat)) :
    keysJoin (r :: rs) = [59].intercalate ((r :: rs).map recKey) ++ [59] := by
  induction rs generalizing r with
  | nil => simp [keysJoin, List.intercalate]
  | cons r2 rs ih =>
    have h := ih r2
    simp only [keysJoin, List.map_cons, List.flatten_cons, List.intercalate,
      List.intersperse_cons₂, List.append_assoc] at h ⊢
    rw [h]

theorem keys_nulfree (rs : List (List Nat)) (h : ∀ r ∈ rs, 0 ∉ r) :
    0 ∉ [59].intercalate (rs.map recKey) := by
  induction rs with
  | nil => simp [List.intercalate]
  | cons r rs ih =>
    cases rs with
    | nil =>
      simpa [List.intercalate] using recKey_nulfree r (h r (by simp))
    | cons r2 rs2 =>
      have h1 := recKey_nulfree r (h r (by simp))
      have h2 := ih (fun x hx => h x (by simp [hx]))
      simp only [List.map_cons, List.intercalate, List.intersperse_cons₂, List.flatten_cons,
        List.mem_append, List.mem_singleton, not_or] at h2 ⊢
      exact ⟨h1, by omega, h2⟩

theorem size_t_nat (n : Nat) : size_t (n : Int) = n := by
  unfold size_t
  have : ¬ ((n : Int) < 0) := by omega
  simp [this]

theorem snprintf_nat (cap : Nat) (text : List Nat) (hcap : 0 < cap) :
    snprintf 0 (cap : Int) text = storeAt 0 (text.take (cap - 1) ++ [0]) := by
  unfold snprintf
  rw [size_t_nat]
  have : cap ≠ 0 := by omega
  simp [this]

/-- The read buffer of `print_pid_environ_list` holds the keys joined by `;`
as its C string when every record has a non-empty key. -/
theorem environ_list_run_keys (block : List Nat) (cap : Nat) (hcap : 0 < cap)
    (hkeys : ∀ r ∈ records block, recKey r ≠ []) :
    ∃ st, environ_list_run block cap = some st ∧
      cstr st.buf = [59].intercalate ((records block).map recKey) := by
  unfold environ_list_run
  simp only [readAll_eq block cap hcap]
  obtain ⟨rest, br2, stores2, hloop⟩ := environ_list_loop_eq block block.length 0 [] [] []
    (by omega) (by simp) (by simp) (by simpa [records] using hkeys)
  simp only [List.nil_append, List.drop_zero, List.length_nil, Nat.cast_zero] at hloop
  rw [hloop]
  refine ⟨_, rfl, ?_⟩
  simp only
  have hrec : recordsFrom block.length block = records block := rfl
  rw [hrec]
  cases hrs : records block with
  | nil =>
    have hb := records_eq_nil block hrs
    subst hb
    simp only [environ_list_loop, Nat.lt_irrefl, if_false, List.length_nil, List.nil_append,
      Option.some.injEq] at hloop
    have hbuf := congrArg ListRun.buf hloop
    simp only [recordsFrom, keysJoin, List.map_nil, List.flatten_nil, List.nil_append] at hbuf
    rw [← hbuf]
    simp [keysJoin, poke, cstr, List.intercalate]
  | cons r rs =>
    have hnf : ∀ x ∈ r :: rs, 0 ∉ x := by
      intro x hx
      rw [← hrs] at hx
      exact recordsFrom_nulfree _ _ x hx
    rw [keysJoin_cons]
    rw [List.append_assoc, List.singleton_append]
    rw [poke_at_length _ _ 59 0 _ (by simp)]
    exact cstr_append_nul _ _ (keys_nulfree _ hnf)

/-! ## Claims -/

/-- C1 (code defect). `print_pid_cmdline` on the command line `"a\0b\0c"` with a
capacity of 8: the bytes of the automatic array after the five bytes read are
never set, so the output is `"a b c"` followed by whatever the array held; it
is `"a b c"` only when the array happened to hold a NUL there. For an empty
command-line file the output is the stale content of the array. -/
theorem print_pid_cmdline_unterminated :
    outText (List.replicate 8 0)
        (print_pid_cmdline (oneFile [99] [97, 0, 98, 0, 99]) [99]
          [88, 88, 88, 88, 88, 88, 88, 88] 8) = [97, 32, 98, 32, 99, 88, 88] ∧
    outText (List.replicate 8 0)
        (print_pid_cmdline (oneFile [99] [97, 0, 98, 0, 99]) [99]
          [0, 0, 0, 0, 0, 0, 0, 0] 8) = [97, 32, 98, 32, 99] ∧
    outText (List.replicate 8 0)
        (print_pid_cmdline (oneFile [99] []) [99]
          [88, 88, 88, 88, 88, 88, 88, 88] 8) = [88, 88, 88, 88, 88, 88, 88] := by
  decide

/-- C2, the claim as stated fails. In the block `"FOO=\0FOO=x\0"` the first record
whose key is `FOO` has the empty value, yet `print_pid_environ` stores `"x"`,
the value of a later record. -/
theorem print_pid_environ_later_record :
    spec_environ_value [70, 79, 79, 61, 0, 70, 79, 79, 61, 120, 0] [70, 79, 79] = [] ∧
    (print_pid_environ (oneFile [101] [70, 79, 79, 61, 0, 70, 79, 79, 61, 120, 0])
        ⟨[70, 79, 79], [101]⟩ 16).map (outText (List.replicate 16 0)) = some [120] := by
  decide

theorem findSome_of_find (name : List Nat) (L : List (List Nat)) (r : List Nat)
    (hfind : L.find? (fun r => hasKey r name && !(recValue r).isEmpty) = some r)
    (hrange : ∀ c ∈ recValue r, 1 ≤ c ∧ c ≤ 173) :
    L.findSome? (environ_match name) = some (recValue r) := by
  induction L with
  | nil => simp at hfind
  | cons x xs ih =>
    rw [List.find?_cons] at hfind
    have hall : (recValue r).takeWhile inRange = recValue r := by
      rw [List.takeWhile_eq_self_iff]
      intro c hc
      have := hrange c hc
      simp [inRange, this.1, this.2]
    by_cases hx : (hasKey x name && !(recValue x).isEmpty) = true
    · simp only [hx] at hfind
      have hxr : x = r := by simpa using hfind
      subst hxr
      simp only [Bool.and_eq_true, Bool.not_eq_true'] at hx
      rw [List.findSome?_cons]
      simp [environ_match, hx.1, hall, hx.2]
    · have hx2 : (hasKey x name && !(recValue x).isEmpty) = false := by simpa using hx
      simp only [hx2] at hfind
      rw [List.findSome?_cons]
      have hm : environ_match name x = none := by
        unfold environ_match
        by_cases hk : hasKey x name = true
        · have hv : (recValue x).isEmpty = true := by simpa [hk] using hx2
          have : recValue x = [] := by simpa using hv
          simp [this]
        · simp [hk]
      rw [hm]
      exact ih hfind

/-- C2 (amended). For a readable block and a stored plain name, let `r` be the
first record, in file order, whose key equals the name and whose value is not
empty, and let the bytes of its value lie in 1..173. Then `print_pid_environ`
stores exactly that value and its terminator at the start of `p`, whatever
records follow, and reports nothing; the buffer then holds the value when the
value is shorter than the buffer. -/
theorem print_pid_environ_first_match (fs : Procfs) (ed : environ_data) (cap : Nat)
    (block r prior : List Nat)
    (hopen : fs.fopen ed.file = some block) (hcap : 0 < cap) (hp : PlainName ed.var)
    (hfind : (records block).find?
      (fun r => hasKey r ed.var && !(recValue r).isEmpty) = some r)
    (hrange : ∀ c ∈ recValue r, 1 ≤ c ∧ c ≤ 173) :
    print_pid_environ fs ed cap = some ⟨storeAt 0 (recValue r ++ [0]), []⟩ ∧
    ((recValue r).length < prior.length →
      outText prior ⟨storeAt 0 (recValue r ++ [0]), []⟩ = recValue r) := by
  constructor
  · rw [print_pid_environ_eq fs ed cap block hopen hcap hp,
      findSome_of_find ed.var _ r hfind hrange]
  · intro hlen
    apply outText_store _ _ _ _ hlen
    intro h0
    have := hrange 0 h0
    omega

/-- C2, witness: block `"FOO=bar\0BAZ=qux\0"`, stored name `FOO`, output `"bar"`. -/
theorem print_pid_environ_first_match_witness :
    print_pid_environ
        (oneFile [101] [70, 79, 79, 61, 98, 97, 114, 0, 66, 65, 90, 61, 113, 117, 120, 0])
        ⟨[70, 79, 79], [101]⟩ 16 = some ⟨storeAt 0 ([98, 97, 114] ++ [0]), []⟩ ∧
    (([98, 97, 114] : List Nat).length < (List.replicate 16 7).length →
      outText (List.replicate 16 7) ⟨storeAt 0 ([98, 97, 114] ++ [0]), []⟩ = [98, 97, 114]) :=
  print_pid_environ_first_match
    (oneFile [101] [70, 79, 79, 61, 98, 97, 114, 0, 66, 65, 90, 61, 113, 117, 120, 0])
    ⟨[70, 79, 79], [101]⟩ 16
    [70, 79, 79, 61, 98, 97, 114, 0, 66, 65, 90, 61, 113, 117, 120, 0]
    [70, 79, 79, 61, 98, 97, 114] (List.replicate 16 7)
    (by decide) (by decide) (by decide) (by decide) (by decide)

/-- C3, the claim as stated fails. For the block `"FOO=bar\0BAZ=qux\0"` the
keys joined with `"; "` are `"FOO; BAZ"`, but `print_pid_environ_list` yields
`"FOO;BAZ"`: the separator is the single byte `;`. -/
theorem print_pid_environ_list_separator :
    spec_key_list [70, 79, 79, 61, 98, 97, 114, 0, 66, 65, 90, 61, 113, 117, 120, 0] =
      [70, 79, 79, 59, 32, 66, 65, 90] ∧
    (print_pid_environ_list
        (oneFile [101] [70, 79, 79, 61, 98, 97, 114, 0, 66, 65, 90, 61, 113, 117, 120, 0])
        [101] 16).map (outText (List.replicate 16 0)) =
      some [70, 79, 79, 59, 66, 65, 90] := by
  decide

/-- C3 (amended). For every readable block whose records all have a non-empty
key, and a capacity larger than the resulting text, `print_pid_environ_list`
reports nothing and stores in the output buffer the keys of the records (the
part of each record before its first `=`), in file order, joined with the
single byte `;`, with no trailing separator, and the terminator. -/
theorem print_pid_environ_list_keys (fs : Procfs) (s : List Nat) (cap : Nat)
    (block prior : List Nat)
    (hopen : fs.fopen s = some block) (hprior : prior.length = cap)
    (hkeys : ∀ r ∈ records block, recKey r ≠ [])
    (hfit : ([59].intercalate ((records block).map recKey)).length < cap) :
    print_pid_environ_list fs s cap =
      some ⟨storeAt 0 ([59].intercalate ((records block).map recKey) ++ [0]), []⟩ ∧
    outText prior ⟨storeAt 0 ([59].intercalate ((records block).map recKey) ++ [0]), []⟩ =
      [59].intercalate ((records block).map recKey) := by
  have hcap : 0 < cap := by omega
  obtain ⟨st, hrun, hbuf⟩ := environ_list_run_keys block cap hcap hkeys
  constructor
  · unfold print_pid_environ_list
    rw [hopen]
    simp only [hrun, Option.map_some', hbuf]
    rw [snprintf_nat _ _ hcap, List.take_of_length_le (by omega)]
  · apply outText_store
    · exact keys_nulfree _ (fun r hr => recordsFrom_nulfree _ _ r hr)
    · omega

/-- C3, witness: block `"FOO=bar\0BAZ=qux\0"`, output `"FOO;BAZ"`. -/
theorem print_pid_environ_list_keys_witness :
    print_pid_environ_list
        (oneFile [101] [70, 79, 79, 61, 98, 97, 114, 0, 66, 65, 90, 61, 113, 117, 120, 0])
        [101] 16 = some ⟨storeAt 0 ([70, 79, 79, 59, 66, 65, 90] ++ [0]), []⟩ ∧
    outText (List.replicate 16 7) ⟨storeAt 0 ([70, 79, 79, 59, 66, 65, 90] ++ [0]), []⟩ =
      [70, 79, 79, 59, 66, 65, 90] :=
  print_pid_environ_list_keys
    (oneFile [101] [70, 79, 79, 61, 98, 97, 114, 0, 66, 65, 90, 61, 113, 117, 120, 0])
    [101] 16 [70, 79, 79, 61, 98, 97, 114, 0, 66, 65, 90, 61, 113, 117, 120, 0]
    (List.replicate 16 7) (by decide) (by decide) (by decide) (by decide)

theorem findSome_none_of_keys (name : List Nat) (L : List (List Nat))
    (hno : ∀ r ∈ L, recKey r ≠ name) : L.findSome? (environ_match name) = none := by
  rw [List.findSome?_eq_none_iff]
  intro r hr
  unfold environ_match
  have : hasKey r name = false := by
    unfold hasKey
    have := hno r hr
    simp [this]
  simp [this]

/-- C10, the claim as stated fails for a stored name that contains `=`. The
argument `"1 a=b"` stores the name `A=B`; in the block `"A=B=c\0"` the only
record has the key `A`, so no key equals the stored name, yet
`print_pid_environ` stores `"c"` and the output is `"c"`, not the empty
string. -/
theorem print_pid_environ_name_with_equals :
    scan_pid_environ_arg [47, 112] [49, 32, 97, 61, 98] =
      some (ScanResult.stored
        ⟨[65, 61, 66], [47, 112, 47, 49, 47, 101, 110, 118, 105, 114, 111, 110]⟩) ∧
    records [65, 61, 66, 61, 99, 0] = [[65, 61, 66, 61, 99]] ∧
    (∀ r ∈ records [65, 61, 66, 61, 99, 0], recKey r ≠ [65, 61, 66]) ∧
    print_pid_environ (oneFile [101] [65, 61, 66, 61, 99, 0]) ⟨[65, 61, 66], [101]⟩ 8 =
      some ⟨[(0, 99), (1, 0)], []⟩ ∧
    (print_pid_environ (oneFile [101] [65, 61, 66, 61, 99, 0]) ⟨[65, 61, 66], [101]⟩ 8).map
      (outText [106, 117, 110, 107, 0, 0, 0, 0]) = some [99] := by
  refine ⟨?_, ?_, ?_, ?_, ?_⟩
  · decide
  · decide
  · decide
  · decide
  · decide

/-- C10 (amended). For every readable environment block and stored plain name
(free of NUL, white space, `%` and `=`) such that
no record has a key equal to the stored name, `print_pid_environ` reports
nothing, stores the single byte NUL at `p[0]`, and the output buffer holds the
empty string whatever it held before. -/
theorem print_pid_environ_no_match (fs : Procfs) (ed : environ_data) (cap : Nat)
    (block prior : List Nat)
    (hopen : fs.fopen ed.file = some block) (hcap : 0 < cap) (hprior : prior.length = cap)
    (hp : PlainName ed.var)
    (hno : ∀ r ∈ records block, recKey r ≠ ed.var) :
    print_pid_environ fs ed cap = some ⟨[(0, 0)], []⟩ ∧
    outText prior ⟨[(0, 0)], []⟩ = [] := by
  constructor
  · rw [print_pid_environ_eq fs ed cap block hopen hcap hp,
      findSome_none_of_keys ed.var _ hno]
  · cases prior with
    | nil => simp at hprior; omega
    | cons x xs => simp [outText, applyWrites, poke, cstr]

/-- C10, witness: the query `Foo` is stored as `FOO`; against the block
`"foo=bar\0"` the output is the empty string. -/
theorem print_pid_environ_no_match_witness :
    print_pid_environ (oneFile [101] [102, 111, 111, 61, 98, 97, 114, 0])
        ⟨List.map toupper [70, 111, 111], [101]⟩ 16 = some ⟨[(0, 0)], []⟩ ∧
    outText (List.replicate 16 7) ⟨[(0, 0)], []⟩ = [] :=
  print_pid_environ_no_match (oneFile [101] [102, 111, 111, 61, 98, 97, 114, 0])
    ⟨List.map toupper [70, 111, 111], [101]⟩ 16 [102, 111, 111, 61, 98, 97, 114, 0]
    (List.replicate 16 7) (by decide) (by decide) (by decide) (by decide) (by decide)

theorem cstr_append_left (a b : List Nat) (h : 0 ∉ a) : cstr (a ++ b) = a ++ cstr b := by
  unfold cstr
  induction a with
  | nil => simp
  | cons x xs ih =>
    have hx : x ≠ 0 := fun e => h (by simp [e])
    have hxs : 0 ∉ xs := fun e => h (by simp [e])
    simp [List.takeWhile_cons, hx, ih hxs]

theorem marker_no_overlap (q rest : List Nat) (hq : q ≠ []) (hinf : ¬ STATE_ENTRY <:+: q) :
    ¬ STATE_ENTRY <+: q ++ STATE_ENTRY ++ rest := by
  intro hpre
  by_cases hl : STATE_ENTRY.length ≤ q.length
  · apply hinf
    have h1 : q <+: q ++ STATE_ENTRY ++ rest := by
      rw [List.append_assoc]; exact List.prefix_append _ _
    exact (List.prefix_of_prefix_length_le hpre h1 hl).isInfix
  · rcases q with _ | ⟨a, _ | ⟨b, _ | ⟨c, _ | ⟨d, _ | ⟨e, _ | ⟨f, _ | ⟨g, t⟩⟩⟩⟩⟩⟩⟩
    · exact hq rfl
    · simp [STATE_ENTRY, List.cons_prefix_cons] at hpre
    · simp [STATE_ENTRY, List.cons_prefix_cons] at hpre
    · simp [STATE_ENTRY, List.cons_prefix_cons] at hpre
    · simp [STATE_ENTRY, List.cons_prefix_cons] at hpre
    · simp [STATE_ENTRY, List.cons_prefix_cons] at hpre
    · simp [STATE_ENTRY, List.cons_prefix_cons] at hpre
    · simp [STATE_ENTRY] at hl

theorem strstr_cons (h : Nat) (t needle : List Nat) :
    strstr (h :: t) needle =
      if needle.isPrefixOf (h :: t) then some 0 else (strstr t needle).map (fun k => k + 1) :=
  rfl

theorem strstr_marker (pre rest : List Nat) (hinf : ¬ STATE_ENTRY <:+: pre) :
    strstr (pre ++ STATE_ENTRY ++ rest) STATE_ENTRY = some pre.length := by
  induction pre with
  | nil => simp [STATE_ENTRY, strstr]
  | cons x xs ih =>
    have hxs : ¬ STATE_ENTRY <:+: xs := fun h => hinf (h.trans (List.suffix_cons x xs).isInfix)
    have hno := marker_no_overlap (x :: xs) rest (by simp) hinf
    have hb : STATE_ENTRY.isPrefixOf (x :: (xs ++ STATE_ENTRY ++ rest)) = false := by
      rw [Bool.eq_false_iff]
      intro h
      rw [List.isPrefixOf_iff_prefix] at h
      exact hno (by simpa using h)
    rw [List.cons_append, List.cons_append, strstr_cons, hb, ih hxs]
    simp

theorem strchr_newline (name rest : List Nat) (h : 10 ∉ name) :
    strchr (name ++ 41 :: 10 :: rest) 10 = some (name.length + 1) := by
  induction name with
  | nil => simp [strchr]
  | cons x xs ih =>
    have hx : x ≠ 10 := fun e => h (by simp [e])
    have hxs : 10 ∉ xs := fun e => h (by simp [e])
    simp [strchr, hx, ih hxs]

/-- C4. For every status content made of a NUL-free text that does not contain
the marker, the marker `"State:\t"`, a one-byte code, a space, `(`, a name
(without NUL and line feed), `)` and a line feed, followed by anything, and a
capacity larger than the name, `print_pid_state` reports nothing and leaves
exactly the name in the output buffer. -/
theorem print_pid_state_name (fs : Procfs) (s junk : List Nat) (cap code : Nat)
    (pre name post prior : List Nat)
    (hopen : fs.fopen s =
      some (pre ++ STATE_ENTRY ++ [code, 32, 40] ++ name ++ [41, 10] ++ post))
    (hpre : 0 ∉ pre) (hfirst : ¬ STATE_ENTRY <:+: pre)
    (hname : 0 ∉ name) (hnl : 10 ∉ name)
    (hfit : name.length < cap) (hprior : prior.length = cap) :
    print_pid_state fs s junk cap = ⟨storeAt 0 (name ++ [0]), []⟩ ∧
    outText prior (print_pid_state fs s junk cap) = name := by
  have hcap : 0 < cap := by omega
  have hmain : print_pid_state fs s junk cap = ⟨storeAt 0 (name ++ [0]), []⟩ := by
    unfold print_pid_state
    rw [hopen]
    simp only [readAll_eq _ cap hcap]
    have hM : (0 : Nat) ∉ STATE_ENTRY := by decide
    have hbuf : pre ++ STATE_ENTRY ++ [code, 32, 40] ++ name ++ [41, 10] ++ post ++ [0] ++ junk =
        pre ++ STATE_ENTRY ++ ([code, 32, 40] ++ name ++ [41, 10] ++ post ++ [0] ++ junk) := by
      simp
    have hcs : cstr (pre ++ STATE_ENTRY ++ [code, 32, 40] ++ name ++ [41, 10] ++ post ++ [0] ++ junk)
        = pre ++ STATE_ENTRY ++ cstr ([code, 32, 40] ++ name ++ [41, 10] ++ post ++ [0] ++ junk) := by
      rw [hbuf, List.append_assoc pre, cstr_append_left _ _ hpre, cstr_append_left _ _ hM,
        List.append_assoc]
      simp [List.append_assoc]
    rw [hcs, strstr_marker pre _ hfirst]
    simp only
    have hbuf2 : pre ++ STATE_ENTRY ++ [code, 32, 40] ++ name ++ [41, 10] ++ post ++ [0] ++ junk =
        (pre ++ STATE_ENTRY ++ [code, 32, 40]) ++ (name ++ 41 :: 10 :: (post ++ [0] ++ junk)) := by
      simp
    have hlen : (pre ++ STATE_ENTRY ++ [code, 32, 40]).length = pre.length + STATE_ENTRY.length + 3 := by
      simp [Nat.add_assoc]
    have hdrop : cstrAt (pre ++ STATE_ENTRY ++ [code, 32, 40] ++ name ++ [41, 10] ++ post ++ [0] ++ junk)
        (pre.length + STATE_ENTRY.length + 3) =
        name ++ 41 :: 10 :: cstr (post ++ [0] ++ junk) := by
      unfold cstrAt
      rw [hbuf2, ← hlen, List.drop_left, cstr_append_left _ _ hname]
      simp [cstr, List.takeWhile_cons]
    rw [hdrop, strchr_newline name _ hnl]
    simp only
    have hpoke : poke (pre ++ STATE_ENTRY ++ [code, 32, 40] ++ name ++ [41, 10] ++ post ++ [0] ++ junk)
        (((pre.length + STATE_ENTRY.length + 3 : Nat) : Int) + ((name.length + 1 : Nat) : Int) - 1, 0) =
        (pre ++ STATE_ENTRY ++ [code, 32, 40] ++ name) ++ 0 :: 10 :: (post ++ [0] ++ junk) := by
      have : pre ++ STATE_ENTRY ++ [code, 32, 40] ++ name ++ [41, 10] ++ post ++ [0] ++ junk =
          (pre ++ STATE_ENTRY ++ [code, 32, 40] ++ name) ++ 41 :: 10 :: (post ++ [0] ++ junk) := by
        simp
      rw [this]
      apply poke_at_length
      simp only [List.length_append, List.length_cons, List.length_nil, Nat.cast_add,
        Nat.cast_one]
      push_cast
      ring
    rw [hpoke]
    have hdrop2 : cstrAt ((pre ++ STATE_ENTRY ++ [code, 32, 40] ++ name) ++
        0 :: 10 :: (post ++ [0] ++ junk)) (pre.length + STATE_ENTRY.length + 3) = name := by
      unfold cstrAt
      rw [List.append_assoc (pre ++ STATE_ENTRY ++ [code, 32, 40]), ← hlen, List.drop_left]
      exact cstr_append_nul _ _ hname
    rw [hdrop2, snprintf_nat _ _ hcap, List.take_of_length_le (by omega)]
  refine ⟨hmain, ?_⟩
  rw [hmain]
  exact outText_store _ _ _ hname (by omega)

/-- C4, witness: `"Name:\tcat\nState:\tS (sleeping)\nTgid:\t1\n"` yields `"sleeping"`. -/
theorem print_pid_state_name_witness :
    print_pid_state
        (oneFile [115] ([78, 97, 109, 101, 58, 9, 99, 97, 116, 10] ++ STATE_ENTRY ++ [83, 32, 40] ++
          [115, 108, 101, 101, 112, 105, 110, 103] ++ [41, 10] ++ [84, 103, 105, 100, 58, 9, 49, 10]))
        [115] [7, 7, 7] 16 = ⟨storeAt 0 ([115, 108, 101, 101, 112, 105, 110, 103] ++ [0]), []⟩ ∧
    outText (List.replicate 16 7)
      (print_pid_state
        (oneFile [115] ([78, 97, 109, 101, 58, 9, 99, 97, 116, 10] ++ STATE_ENTRY ++ [83, 32, 40] ++
          [115, 108, 101, 101, 112, 105, 110, 103] ++ [41, 10] ++ [84, 103, 105, 100, 58, 9, 49, 10]))
        [115] [7, 7, 7] 16) = [115, 108, 101, 101, 112, 105, 110, 103] :=
  print_pid_state_name _ [115] [7, 7, 7] 16 83 [78, 97, 109, 101, 58, 9, 99, 97, 116, 10]
    [115, 108, 101, 101, 112, 105, 110, 103] [84, 103, 105, 100, 58, 9, 49, 10]
    (List.replicate 16 7) (by decide) (by decide) (by decide) (by decide) (by decide)
    (by decide) (by decide)

theorem mem_firstOcc (L : List (List Nat)) (t : List Nat) : t ∈ firstOcc L ↔ t ∈ L := by
  induction L with
  | nil => simp [firstOcc]
  | cons x xs ih =>
    simp only [firstOcc, List.mem_cons, List.mem_filter, ih, bne_iff_ne, ne_eq]
    constructor
    · rintro (h | ⟨h, _⟩)
      · exact Or.inl h
      · exact Or.inr h
    · rintro (h | h)
      · exact Or.inl h
      · by_cases e : t = x
        · exact Or.inl e
        · exact Or.inr ⟨h, e⟩

theorem firstOcc_nodup (L : List (List Nat)) : (firstOcc L).Nodup := by
  induction L with
  | nil => simp [firstOcc]
  | cons x xs ih =>
    rw [firstOcc, List.nodup_cons]
    exact ⟨by simp [List.mem_filter], ih.filter _⟩

theorem firstOcc_snoc (L : List (List Nat)) (t : List Nat) :
    firstOcc (L ++ [t]) = if t ∈ L then firstOcc L else firstOcc L ++ [t] := by
  induction L with
  | nil => simp [firstOcc]
  | cons x xs ih =>
    have e1 : firstOcc (x :: xs ++ [t]) =
        x :: (firstOcc (xs ++ [t])).filter (fun y => y != x) := rfl
    have e2 : firstOcc (x :: xs) = x :: (firstOcc xs).filter (fun y => y != x) := rfl
    rw [e1, e2, ih]
    by_cases hx : t = x
    · subst hx
      by_cases hm : t ∈ xs
      · simp [hm]
      · simp [hm, List.filter_append]
    · by_cases hm : t ∈ xs
      · simp [hm]
      · have : ¬ (t = x ∨ t ∈ xs) := by simp [hx, hm]
        simp [hm, hx, List.filter_append]

theorem firstOcc_prefix_append (A B : List (List Nat)) : firstOcc A <+: firstOcc (A ++ B) := by
  induction A with
  | nil => simp [firstOcc]
  | cons x xs ih =>
    simp only [List.cons_append, firstOcc]
    exact (List.prefix_cons_inj x).2 (ih.filter _)

theorem sepJoin_append (A B : List (List Nat)) : sepJoin (A ++ B) = sepJoin A ++ sepJoin B := by
  simp [sepJoin]

theorem sepJoin_length_mono (A B : List (List Nat)) (h : A <+: B) :
    (sepJoin A).length ≤ (sepJoin B).length := by
  obtain ⟨C, rfl⟩ := h
  rw [sepJoin_append]
  simp

theorem sepJoin_mem_length (D : List (List Nat)) (t : List Nat) (h : t ∈ D) :
    t.length + 2 ≤ (sepJoin D).length := by
  induction D with
  | nil => simp at h
  | cons x xs ih =>
    simp only [sepJoin, List.map_cons, List.flatten_cons, List.length_append,
      List.length_cons, List.length_nil] at ih ⊢
    rcases List.mem_cons.1 h with h | h
    · subst h; omega
    · have := ih h; omega

theorem sepJoin_eq_intercalate (d : List Nat) (D : List (List Nat)) :
    sepJoin (d :: D) = [59, 32].intercalate (d :: D) ++ [59, 32] := by
  induction D generalizing d with
  | nil => simp [sepJoin, List.intercalate]
  | cons d2 D ih =>
    have h := ih d2
    simp only [sepJoin, List.map_cons, List.flatten_cons, List.intercalate,
      List.intersperse_cons₂, List.append_assoc] at h ⊢
    rw [h]

theorem intercalate_nulfree (D : List (List Nat)) (h : ∀ d ∈ D, 0 ∉ d) :
    0 ∉ [59, 32].intercalate D := by
  induction D with
  | nil => simp [List.intercalate]
  | cons d D ih =>
    cases D with
    | nil => simpa [List.intercalate] using h d (by simp)
    | cons d2 D2 =>
      have h1 := h d (by simp)
      have h2 := ih (fun x hx => h x (by simp [hx]))
      simp only [List.intercalate, List.intersperse_cons₂, List.flatten_cons,
        List.mem_append, List.mem_cons, not_or] at h2 ⊢
      refine ⟨h1, ⟨by omega, by omega, ?_⟩, h2⟩
      simp

theorem inlist_eq (files : List (List Nat)) (b : List Nat) :
    inlist files b = if cstr b ∈ files then 1 else 0 := by
  induction files with
  | nil => simp [inlist]
  | cons x xs ih =>
    by_cases hx : x = cstr b
    · simp [inlist, hx]
    · have : ¬ cstr b = x := fun e => hx e.symm
      simp [inlist, hx, ih, this]

theorem applyWrites_length (ws : List (Int × Nat)) :
    ∀ m : List Nat, (applyWrites m ws).length = m.length := by
  induction ws with
  | nil => intro m; rfl
  | cons w ws ih =>
    intro m
    simp only [applyWrites, List.foldl_cons] at ih ⊢
    rw [ih]
    unfold poke
    split <;> simp

theorem applyWrites_append (m : List Nat) (a b : List (Int × Nat)) :
    applyWrites m (a ++ b) = applyWrites (applyWrites m a) b := by
  simp [applyWrites, List.foldl_append]

theorem openfiles_step_dot (fs : Procfs) (s : List Nat) (cap : Nat) (st : OpenState)
    (e : List Nat) (hdot : nonDot e = false) : openfiles_step fs s cap st e = st := by
  unfold openfiles_step
  have : (cstr e).head? = some 46 := by
    unfold nonDot at hdot
    simpa using hdot
  simp [this]

theorem openfiles_step_inv (fs : Procfs) (s : List Nat) (cap : Nat) (prior : List Nat)
    (st : OpenState) (L : List (List Nat)) (e t : List Nat)
    (hinv : OpenInv cap prior st L) (hprior : prior.length = cap)
    (hdot : nonDot e = true)
    (hpath : (cstr s ++ [47] ++ cstr e).length < cap)
    (hres : fs.readlink (cstr s ++ [47] ++ cstr e) = some t) (ht0 : 0 ∉ t)
    (hfit : (sepJoin (firstOcc (L ++ [t]))).length ≤ cap + 1) :
    OpenInv cap prior (openfiles_step fs s cap st e) (L ++ [t]) := by
  obtain ⟨hfiles, htot, hmem⟩ := hinv
  have hhead : (cstr e).head? ≠ some 46 := by
    unfold nonDot at hdot
    simpa using hdot
  have htake : (cstr s ++ [47] ++ cstr e).take (cap - 1) = cstr s ++ [47] ++ cstr e :=
    List.take_of_length_le (by omega)
  have htlen : t.length + 2 ≤ cap + 1 := by
    have h1 : t ∈ firstOcc (L ++ [t]) := (mem_firstOcc _ _).2 (by simp)
    have := sepJoin_mem_length _ _ h1
    omega
  have htk : t.take cap = t := List.take_of_length_le (by omega)
  have hmin : min t.length cap = t.length := by omega
  have hbuf : cstr (t ++ [0]) = t := by
    rw [cstr_append_singleton, cstr_of_nulfree t ht0]
  unfold openfiles_step
  simp only [hhead, ne_eq, not_false_eq_true, if_true, htake, hres, htk, hmin]
  rw [inlist_eq, hbuf, hfiles]
  by_cases hm : t ∈ L
  · have hm2 : t ∈ firstOcc L := (mem_firstOcc _ _).2 hm
    simp only [hm2, if_true, one_ne_zero, if_false]
    refine ⟨?_, ?_, ?_⟩
    · simp [firstOcc_snoc, hm, hfiles]
    · simp [firstOcc_snoc, hm, htot]
    · simpa [firstOcc_snoc, hm] using hmem
  · have hm2 : t ∉ firstOcc L := fun h => hm ((mem_firstOcc _ _).1 h)
    have hsn : firstOcc (L ++ [t]) = firstOcc L ++ [t] := by simp [firstOcc_snoc, hm]
    have hsj : sepJoin (firstOcc L ++ [t]) = sepJoin (firstOcc L) ++ (t ++ [59, 32]) := by
      rw [sepJoin_append]; simp [sepJoin]
    rw [hsn, hsj] at hfit
    simp only [List.length_append, List.length_cons, List.length_nil] at hfit
    have hT : (sepJoin (firstOcc L)).length + 1 ≤ cap := by omega
    simp only [hm2, if_false, if_true]
    refine ⟨?_, ?_, ?_⟩
    · simp [addnode, hbuf, hsn, hfiles]
    · simp only [htot, hsn, hsj, List.length_append, List.length_cons, List.length_nil]
      push_cast
      ring
    · simp only [hsn, hsj]
      rw [applyWrites_append]
      have hfull : (sepJoin (firstOcc L)).take (cap - 1) = sepJoin (firstOcc L) :=
        List.take_of_length_le (by omega)
      rw [hfull] at hmem
      obtain ⟨rest, hrest⟩ := hmem
      have hlenm : (applyWrites prior st.writes).length = cap := by
        rw [applyWrites_length, hprior]
      have hsize : size_t ((cap : Int) - st.totallength) = cap - (sepJoin (firstOcc L)).length := by
        rw [htot]
        have : ((cap : Int) - ((sepJoin (firstOcc L)).length : Int)) =
            ((cap - (sepJoin (firstOcc L)).length : Nat) : Int) := by omega
        rw [this, size_t_nat]
      have hne : cap - (sepJoin (firstOcc L)).length ≠ 0 := by omega
      unfold snprintf
      rw [hsize]
      simp only [hne, if_false]
      rw [htot, applyWrites_storeAt]
      · rw [← hrest]
        rw [List.take_left]
        rw [List.take_append_eq_append_take]
        have hz : (sepJoin (firstOcc L)).take (cap - 1) = sepJoin (firstOcc L) := hfull
        rw [hz]
        have hidx : cap - 1 - (sepJoin (firstOcc L)).length =
            cap - (sepJoin (firstOcc L)).length - 1 := by omega
        rw [hidx]
        rw [List.append_assoc, List.append_assoc]
        apply (List.prefix_append_right_inj _).2
        exact List.prefix_append _ _
      · rw [hlenm]
        simp only [List.length_append, List.length_take, List.length_cons, List.length_nil, hbuf]
        omega

theorem openfiles_fold_inv (fs : Procfs) (s : List Nat) (cap : Nat) (prior : List Nat)
    (tgt : List Nat → List Nat) (hprior : prior.length = cap) :
    ∀ (entries : List (List Nat)) (st : OpenState) (L : List (List Nat)),
      OpenInv cap prior st L →
      (∀ e ∈ entries, nonDot e = true →
        (cstr s ++ [47] ++ cstr e).length < cap ∧
        fs.readlink (cstr s ++ [47] ++ cstr e) = some (tgt e) ∧ 0 ∉ tgt e) →
      (sepJoin (firstOcc (L ++ (entries.filter nonDot).map tgt))).length ≤ cap + 1 →
      OpenInv cap prior (entries.foldl (openfiles_step fs s cap) st)
        (L ++ (entries.filter nonDot).map tgt) := by
  intro entries
  induction entries with
  | nil => intro st L h _ _; simpa using h
  | cons e es ih =>
    intro st L hinv hall hfit
    have hrest : ∀ x ∈ es, nonDot x = true →
        (cstr s ++ [47] ++ cstr x).length < cap ∧
        fs.readlink (cstr s ++ [47] ++ cstr x) = some (tgt x) ∧ 0 ∉ tgt x :=
      fun x hx => hall x (by simp [hx])
    rw [List.foldl_cons]
    by_cases hdot : nonDot e = true
    · obtain ⟨hpath, hres, ht0⟩ := hall e (by simp) hdot
      have hl : L ++ ((e :: es).filter nonDot).map tgt =
          (L ++ [tgt e]) ++ (es.filter nonDot).map tgt := by
        simp [List.filter_cons, hdot]
      rw [hl] at hfit ⊢
      have hfit1 : (sepJoin (firstOcc (L ++ [tgt e]))).length ≤ cap + 1 :=
        le_trans (sepJoin_length_mono _ _ (firstOcc_prefix_append _ _)) hfit
      exact ih _ _ (openfiles_step_inv fs s cap prior st L e (tgt e) hinv hprior hdot hpath
        hres ht0 hfit1) hrest hfit
    · have hdot2 : nonDot e = false := by simpa using hdot
      have hl : L ++ ((e :: es).filter nonDot).map tgt = L ++ (es.filter nonDot).map tgt := by
        simp [List.filter_cons, hdot2]
      rw [hl] at hfit ⊢
      rw [openfiles_step_dot fs s cap st e hdot2]
      exact ih _ _ hinv hrest hfit

/-- C5. For every listing of a readable descriptor directory with at least one
entry whose name does not start with `.`, where every such entry has a path that
fits the working buffer and resolves to a NUL-free target, and for every
capacity larger than the resulting text, `print_pid_openfiles` reports nothing
and leaves in the output buffer the distinct targets, in order of first
occurrence, joined by `"; "` with no trailing separator; the list of distinct
targets has no duplicates and has the same members as the list of targets. -/
theorem print_pid_openfiles_distinct (fs : Procfs) (s : List Nat) (cap : Nat)
    (entries : List (List Nat)) (tgt : List Nat → List Nat) (prior : List Nat)
    (hopen : fs.opendir s = some entries) (hprior : prior.length = cap)
    (hne : ∃ e ∈ entries, nonDot e = true)
    (hall : ∀ e ∈ entries, nonDot e = true →
      (cstr s ++ [47] ++ cstr e).length < cap ∧
      fs.readlink (cstr s ++ [47] ++ cstr e) = some (tgt e) ∧ 0 ∉ tgt e)
    (hfit : ([59, 32].intercalate (firstOcc ((entries.filter nonDot).map tgt))).length < cap) :
    (print_pid_openfiles fs s cap).errs = [] ∧
    outText prior (print_pid_openfiles fs s cap) =
      [59, 32].intercalate (firstOcc ((entries.filter nonDot).map tgt)) ∧
    (firstOcc ((entries.filter nonDot).map tgt)).Nodup ∧
    ∀ t, t ∈ firstOcc ((entries.filter nonDot).map tgt) ↔
      t ∈ (entries.filter nonDot).map tgt := by
  refine ⟨?_, ?_, firstOcc_nodup _, fun t => mem_firstOcc _ t⟩
  · unfold print_pid_openfiles; rw [hopen]
  · obtain ⟨e0, he0, hd0⟩ := hne
    have hmem0 : tgt e0 ∈ (entries.filter nonDot).map tgt :=
      List.mem_map.2 ⟨e0, List.mem_filter.2 ⟨he0, hd0⟩, rfl⟩
    have hmemD : tgt e0 ∈ firstOcc ((entries.filter nonDot).map tgt) :=
      (mem_firstOcc _ _).2 hmem0
    generalize hD : firstOcc ((entries.filter nonDot).map tgt) = D at hfit hmemD
    have hnul : ∀ d ∈ D, 0 ∉ d := by
      intro d hd
      rw [← hD] at hd
      obtain ⟨e, he, rfl⟩ := List.mem_map.1 ((mem_firstOcc _ _).1 hd)
      obtain ⟨he1, he2⟩ := List.mem_filter.1 he
      exact (hall e he1 he2).2.2
    cases D with
    | nil => simp at hmemD
    | cons d D2 =>
      have hsj := sepJoin_eq_intercalate d D2
      have hinv := openfiles_fold_inv fs s cap prior tgt hprior entries ⟨[], 0, [], []⟩ []
        (by simp [OpenInv, firstOcc, sepJoin, applyWrites])
        hall (by
          simp only [List.nil_append]
          rw [hD, hsj]
          simp only [List.length_append, List.length_cons, List.length_nil]
          omega)
      simp only [List.nil_append] at hinv
      unfold OpenInv at hinv
      rw [hD] at hinv
      obtain ⟨_, htot, hpre⟩ := hinv
      unfold print_pid_openfiles
      rw [hopen]
      simp only [outText]
      rw [applyWrites_append]
      have hI : [59, 32].intercalate (d :: D2) <+:
          (sepJoin (d :: D2)).take (cap - 1) := by
        rw [hsj, List.take_append_eq_append_take, List.take_of_length_le (by omega)]
        exact List.prefix_append _ _
      obtain ⟨rest, hrest⟩ := hI.trans hpre
      have hlen := applyWrites_length
        (entries.foldl (openfiles_step fs s cap) ⟨[], 0, [], []⟩).writes prior
      rw [← hrest] at hlen ⊢
      cases rest with
      | nil => simp at hlen; omega
      | cons x rest2 =>
        have hidx : (entries.foldl (openfiles_step fs s cap) ⟨[], 0, [], []⟩).totallength - 2 =
            (([59, 32].intercalate (d :: D2)).length : Int) := by
          rw [htot, hsj]
          simp only [List.length_append, List.length_cons, List.length_nil]
          push_cast
          ring
        rw [hidx]
        simp only [applyWrites, List.foldl_cons, List.foldl_nil]
        rw [poke_at_length _ _ x 0 _ rfl]
        exact cstr_append_nul _ _ (intercalate_nulfree _ hnul)

/-- C5, witness: the entries `0` and `1` lead to `/n`, the entry `2` to `/x`;
the output is `"/n; /x"`. -/
theorem print_pid_openfiles_distinct_witness :
    (print_pid_openfiles demoFd [47, 102, 100] 16).errs = [] ∧
    outText (List.replicate 16 7) (print_pid_openfiles demoFd [47, 102, 100] 16) =
      [47, 110, 59, 32, 47, 120] := by
  have h := print_pid_openfiles_distinct demoFd [47, 102, 100] 16
    [[46], [46, 46], [48], [49], [50]]
    (fun e => if e = [50] then [47, 120] else [47, 110]) (List.replicate 16 7)
    (by decide) (by decide) (by decide) (by decide) (by decide)
  exact ⟨h.1, h.2.1⟩

/-- C6 (code defect). With a capacity of 4 and the block `"FOO=barbaz\0"`,
`print_pid_environ` stores the seven bytes `"barbaz\0"` at `p[0..6]`: the
conversion `%[...]` has no field width, so bytes at and beyond index
`capacity` are written. With a capacity of 6 and the two targets `/n` and
`/x`, `print_pid_openfiles` ends with the store `p[6] = 0`. -/
theorem print_pid_environ_overflow :
    print_pid_environ (oneFile [101] [70, 79, 79, 61, 98, 97, 114, 98, 97, 122, 0])
        ⟨[70, 79, 79], [101]⟩ 4 = some ⟨storeAt 0 [98, 97, 114, 98, 97, 122, 0], []⟩ ∧
    ¬ inBounds 4 (storeAt 0 [98, 97, 114, 98, 97, 122, 0]) ∧
    ((6 : Int), 0) ∈ (print_pid_openfiles demoFd [47, 102, 100] 6).writes ∧
    ¬ inBounds 6 (print_pid_openfiles demoFd [47, 102, 100] 6).writes := by
  decide

/-- C7, the claim as stated fails. The command-line file cannot be opened and
the output buffer holds `"junk"`: `print_pid_cmdline` reports the read error
and the buffer still holds `"junk"`, not the empty string. When the
descriptor directory cannot be opened, `print_pid_openfiles` reports no
error. -/
theorem print_pid_cmdline_failure_keeps_buffer :
    print_pid_cmdline noFile [99] [0, 0, 0, 0, 0, 0, 0, 0] 8 = ⟨[], [Diag.READERR [99]]⟩ ∧
    outText [106, 117, 110, 107, 0, 0, 0, 0]
      (print_pid_cmdline noFile [99] [0, 0, 0, 0, 0, 0, 0, 0] 8) = [106, 117, 110, 107] ∧
    (print_pid_openfiles noFile [102] 8).errs = [] := by
  decide

/-- C7 (amended). If the backing pseudo-file cannot be opened or the link cannot
be resolved, the command-line, link, environment value, environment key-list
and state routines report the read error and store nothing in the output
buffer, which therefore holds the text it held before the call (the empty
string when it held the empty string); if the descriptor directory cannot be
opened, `print_pid_openfiles` reports no error and stores a NUL at `p[0]`, so
that a buffer of at least one byte holds the empty string. -/
theorem print_failure_effect (fs : Procfs) (s : List Nat) (ed : environ_data)
    (buf0 junk prior : List Nat) (cap : Nat) :
    (fs.fopen s = none →
      print_pid_cmdline fs s buf0 cap = ⟨[], [Diag.READERR s]⟩ ∧
      print_pid_environ_list fs s cap = some ⟨[], [Diag.READERR s]⟩ ∧
      print_pid_state fs s junk cap = ⟨[], [Diag.READERR s]⟩) ∧
    (fs.fopen ed.file = none →
      print_pid_environ fs ed cap = some ⟨[], [Diag.READERR ed.file]⟩) ∧
    (fs.readlink s = none →
      print_pid_cwd fs s cap = ⟨[], [Diag.READERR s]⟩ ∧
      print_pid_readlink fs s cap = ⟨[], [Diag.READERR s]⟩) ∧
    (∀ errs, outText prior ⟨[], errs⟩ = cstr prior) ∧
    (fs.opendir s = none →
      print_pid_openfiles fs s cap = ⟨[(0, 0)], []⟩ ∧
      (prior ≠ [] → outText prior (print_pid_openfiles fs s cap) = [])) := by
  refine ⟨?_, ?_, ?_, ?_, ?_⟩
  · intro h
    simp [print_pid_cmdline, print_pid_environ_list, print_pid_state, h]
  · intro h
    simp [print_pid_environ, h]
  · intro h
    simp [print_pid_cwd, print_pid_readlink, h]
  · intro errs
    simp [outText, applyWrites]
  · intro h
    have hr : print_pid_openfiles fs s cap = ⟨[(0, 0)], []⟩ := by
      simp [print_pid_openfiles, h]
    refine ⟨hr, ?_⟩
    intro hp
    rw [hr]
    cases prior with
    | nil => exact absurd rfl hp
    | cons x xs => simp [outText, applyWrites, poke, cstr]

/-- C7, witness: nothing can be opened; a buffer that held the empty string
holds the empty string afterwards. -/
theorem print_failure_effect_witness :
    print_pid_cmdline noFile [99] [5, 5] 2 = ⟨[], [Diag.READERR [99]]⟩ ∧
    print_pid_readlink noFile [99] 2 = ⟨[], [Diag.READERR [99]]⟩ ∧
    outText [0, 7] (print_pid_cmdline noFile [99] [5, 5] 2) = [] ∧
    outText [7, 7] (print_pid_openfiles noFile [99] 2) = [] := by
  have h := print_failure_effect noFile [99] ⟨[70], [101]⟩ [5, 5] [] [0, 7] 2
  have h2 := print_failure_effect noFile [99] ⟨[70], [101]⟩ [5, 5] [] [7, 7] 2
  have hc := (h.1 rfl).1
  refine ⟨hc, (h.2.2.1 rfl).2, ?_, (h2.2.2.2.2 rfl).2 (by decide)⟩
  rw [hc]
  exact h.2.2.2.1 _

theorem decimalAux_eq (fuel : Nat) :
    ∀ (n : Nat) (acc : List Nat), n < fuel → decimalAux fuel n acc = decimal n ++ acc := by
  induction fuel using Nat.strong_induction_on with
  | _ fuel ih =>
    intro n acc hn
    cases fuel with
    | zero => omega
    | succ f =>
      unfold decimal
      by_cases h10 : n < 10
      · simp [decimalAux, h10]
      · have hlt : n / 10 < n := Nat.div_lt_self (by omega) (by omega)
        have e1 : decimalAux (f + 1) n acc = decimalAux f (n / 10) ((48 + n % 10) :: acc) := by
          simp [decimalAux, h10]
        have e2 : decimalAux (n + 1) n [] = decimalAux n (n / 10) [48 + n % 10] := by
          simp [decimalAux, h10]
        rw [e1, e2, ih f (by omega) (n / 10) _ (by omega), ih n (by omega) (n / 10) _ hlt]
        simp

theorem digitsVal_snoc (l : List Nat) (d : Nat) :
    digitsVal (l ++ [d]) = 10 * digitsVal l + (d - 48) := by
  simp [digitsVal, List.foldl_append]

theorem foldl_digits_ge (l : List Nat) :
    ∀ a : Nat, a ≤ l.foldl (fun a d => 10 * a + (d - 48)) a := by
  induction l with
  | nil => intro a; simp
  | cons x xs ih =>
    intro a
    simp only [List.foldl_cons]
    exact le_trans (by omega) (ih _)

theorem decimal_digitsVal (pid : List Nat) (hne : pid ≠ [])
    (hdig : ∀ c ∈ pid, isdigit c = true) (hlead : pid.head? = some 48 → pid = [48]) :
    decimal (digitsVal pid) = pid := by
  induction pid using List.reverseRecOn with
  | nil => exact absurd rfl hne
  | append_singleton l d ih =>
    have hd : 48 ≤ d ∧ d ≤ 57 := by
      have := hdig d (by simp)
      simpa [isdigit] using this
    rw [digitsVal_snoc]
    cases l with
    | nil =>
      have : digitsVal [] = 0 := rfl
      rw [this]
      have h10 : d - 48 < 10 := by omega
      simp only [decimal, decimalAux, Nat.mul_zero, Nat.zero_add, h10, if_true, List.nil_append]
      congr 1
      omega
    | cons x xs =>
      have hx : 48 ≤ x ∧ x ≤ 57 := by
        have := hdig x (by simp)
        simpa [isdigit] using this
      have hx48 : x ≠ 48 := by
        intro e
        have := hlead (by simp [e])
        simp at this
      have hv : 1 ≤ digitsVal (x :: xs) := by
        unfold digitsVal
        simp only [List.foldl_cons]
        exact le_trans (by omega) (foldl_digits_ge xs _)
      have ihl := ih (by simp) (fun c hc => hdig c (by simp at hc ⊢; tauto))
        (by intro h; simp at h; exact absurd h hx48)
      generalize digitsVal (x :: xs) = v at hv ihl
      have h10 : ¬ (10 * v + (d - 48) < 10) := by omega
      have e : decimal (10 * v + (d - 48)) =
          decimalAux (10 * v + (d - 48)) ((10 * v + (d - 48)) / 10)
            [48 + (10 * v + (d - 48)) % 10] := by
        simp [decimal, decimalAux, h10]
      have ediv : (10 * v + (d - 48)) / 10 = v := by omega
      have emod : (10 * v + (d - 48)) % 10 = d - 48 := by omega
      rw [e, ediv, emod, decimalAux_eq _ _ _ (by omega), ihl]
      congr 2
      omega

theorem toInt32_small (v : Nat) (h : v < 2 ^ 31) : toInt32 (v : Int) = v := by
  unfold toInt32
  have h1 : min (v : Int) ((2 : Int) ^ 63 - 1) = v := by
    apply min_eq_left
    have : (v : Int) < 2 ^ 31 := by exact_mod_cast h
    omega
  have h2 : max (-(2 : Int) ^ 63) (v : Int) = v := by
    apply max_eq_right
    have : (0 : Int) ≤ v := Int.natCast_nonneg v
    omega
  simp only [h1, h2]
  have : (v : Int) < 2 ^ 31 := by exact_mod_cast h
  omega

theorem takeWhile_all (p : Nat → Bool) (l : List Nat) (h : ∀ c ∈ l, p c = true) :
    l.takeWhile p = l := by
  rw [List.takeWhile_eq_self_iff]; exact h

theorem dropWhile_all (p : Nat → Bool) (l : List Nat) (h : ∀ c ∈ l, p c = true) :
    l.dropWhile p = [] := by
  rw [List.dropWhile_eq_nil_iff]; exact h

theorem sscanf_d_def (arg : List Nat) :
    sscanf 1 arg [37, 100] = some (scanRun [Directive.dec] (cstr arg) []) := by
  have hparse : parseFormat ([37, 100].length + 1) (cstr [37, 100]) = some [Directive.dec] := by
    decide
  have hc : conversions [Directive.dec] ≤ 1 := by decide
  unfold sscanf
  rw [hparse]
  simp only [hc, if_true]

/-- C8, the claim as stated fails. The argument `007` is a non-negative integer
string, but the stored path is `PROCDIR/7/cmdline`, not `PROCDIR/007/cmdline`:
the path is built from the parsed number, not from the text. -/
theorem scan_pid_arg_leading_zeros :
    scan_pid_arg [47, 112] [48, 48, 55] [99, 109, 100, 108, 105, 110, 101] =
      some (ScanResult.stored ([47, 112] ++ [47] ++ [55] ++ [47] ++
        [99, 109, 100, 108, 105, 110, 101])) ∧
    scan_pid_arg [47, 112] [48, 48, 55] [99, 109, 100, 108, 105, 110, 101] ≠
      some (ScanResult.stored ([47, 112] ++ [47] ++ [48, 48, 55] ++ [47] ++
        [99, 109, 100, 108, 105, 110, 101])) := by
  decide

/-- C8 (amended). For every argument that is an unsigned decimal numeral in
canonical form (digits only, no leading zero except for `0`) with a value below
2^31, and every NUL-free attribute suffix, the scan succeeds and the stored
path is `PROCDIR "/" pid "/" suffix` with `pid` exactly as given. -/
theorem scan_pid_arg_canonical (PROCDIR pid file : List Nat) (hpid : isCanonical pid)
    (hfile : 0 ∉ file) :
    scan_pid_arg PROCDIR pid file =
      some (ScanResult.stored (PROCDIR ++ [47] ++ pid ++ [47] ++ file)) := by
  obtain ⟨hne, hdig, hlead, hval⟩ := hpid
  have hdig2 : ∀ c ∈ pid, 48 ≤ c ∧ c ≤ 57 := by
    intro c hc
    have := hdig c hc
    simpa [isdigit] using this
  have h0 : 0 ∉ pid := fun h => by have := hdig2 0 h; omega
  unfold scan_pid_arg
  rw [sscanf_d_def, cstr_of_nulfree pid h0, cstr_of_nulfree file hfile]
  cases hp : pid with
  | nil => exact absurd hp hne
  | cons x xs =>
    rw [← hp]
    have hx := hdig2 x (by rw [hp]; simp)
    have hsp : pid.dropWhile isspace = pid := by
      rw [hp, List.dropWhile_cons]
      have : isspace x = false := by
        unfold isspace
        rw [Bool.eq_false_iff]
        simp only [ne_eq, Bool.or_eq_true, beq_iff_eq, Bool.and_eq_true, decide_eq_true_eq,
          not_or, not_and]
        omega
      simp [this]
    have hrun : scanRun [Directive.dec] pid [] = ⟨1, [Arg.int (digitsVal pid : Nat)]⟩ := by
      rw [scanRun, hsp]
      rw [hp]
      simp only
      rw [← hp]
      have hx43 : x ≠ 43 := by omega
      have hx45 : x ≠ 45 := by omega
      simp only [hx43, hx45, or_self, if_false]
      rw [takeWhile_all isdigit pid hdig, dropWhile_all isdigit pid hdig]
      have hemp : pid.isEmpty = false := by rw [hp]; rfl
      simp only [hemp, Bool.false_eq_true, if_false, List.nil_append, scanRun, scanStop]
      rw [toInt32_small _ hval]
      rfl
    rw [hrun]
    simp only [Option.map_some']
    have hpd : printf_d ((digitsVal pid : Nat) : Int) = pid := by
      unfold printf_d
      have : ¬ (((digitsVal pid : Nat) : Int) < 0) := by omega
      simp only [this, if_false, Int.natAbs_ofNat]
      exact decimal_digitsVal pid hne hdig hlead
    rw [hpd]

/-- C8, witness: the argument `1234` with the suffix `cmdline`. -/
theorem scan_pid_arg_canonical_witness :
    scan_pid_arg [47, 112] [49, 50, 51, 52] [99, 109, 100, 108, 105, 110, 101] =
      some (ScanResult.stored ([47, 112] ++ [47] ++ [49, 50, 51, 52] ++ [47] ++
        [99, 109, 100, 108, 105, 110, 101])) :=
  scan_pid_arg_canonical [47, 112] [49, 50, 51, 52] [99, 109, 100, 108, 105, 110, 101]
    (by decide) (by decide)

theorem takeWhile_isEmpty_head (p : Nat → Bool) (l : List Nat) :
    (l.takeWhile p).isEmpty = !((l.head?.map p).getD false) := by
  cases l with
  | nil => rfl
  | cons x xs =>
    by_cases h : p x = true
    · simp [List.takeWhile_cons, h]
    · simp [List.takeWhile_cons, h]

/-- C9, the claim as stated fails. The negatively signed argument `-5` and the
argument `12abc`, which is not wholly a number, are both accepted: the paths with the process
components `-5` and `12` are stored and no error is signalled. -/
theorem scan_pid_arg_accepts_signed_and_trailing :
    scan_pid_arg [47, 112] [45, 53] [99, 109, 100, 108, 105, 110, 101] =
      some (ScanResult.stored [47, 112, 47, 45, 53, 47, 99, 109, 100, 108, 105, 110, 101]) ∧
    scan_pid_arg [47, 112] [49, 50, 97, 98, 99] [99, 109, 100, 108, 105, 110, 101] =
      some (ScanResult.stored [47, 112, 47, 49, 50, 47, 99, 109, 100, 108, 105, 110, 101]) := by
  decide

/-- C9 (amended). For every argument string that does not start with an integer
(after optional white space and an optional sign no decimal digit follows),
the scan signals the fatal error naming the attribute and stores no path; for
every argument that does start with an integer (negatively signed numbers and
numbers followed by other text included) a path is stored. -/
theorem scan_pid_arg_error_iff (PROCDIR arg file : List Nat) :
    (leadingInt arg = false →
      scan_pid_arg PROCDIR arg file = some (ScanResult.CRIT_ERR (cstr file))) ∧
    (leadingInt arg = true →
      ∃ pid : Int, scan_pid_arg PROCDIR arg file =
        some (ScanResult.stored (PROCDIR ++ [47] ++ printf_d pid ++ [47] ++ cstr file))) := by
  unfold scan_pid_arg leadingInt
  rw [sscanf_d_def]
  cases hd : (cstr arg).dropWhile isspace with
  | nil =>
    simp [scanRun, hd, inputFailure]
  | cons x xs =>
    simp only [scanRun, hd, Option.map_some']
    rw [takeWhile_isEmpty_head]
    generalize (if x = 43 ∨ x = 45 then xs else x :: xs) = body
    constructor
    · intro h
      simp [h, scanStop]
    · intro h
      simp only [h, Bool.not_true, Bool.false_eq_true, if_false, List.nil_append, scanStop,
        List.length_singleton, Nat.cast_one]
      exact ⟨_, rfl⟩

/-- C9, witness: the non-numeric argument `abc` signals the error. -/
theorem scan_pid_arg_error_iff_witness :
    scan_pid_arg [47, 112] [97, 98, 99] [99, 109, 100, 108, 105, 110, 101] =
      some (ScanResult.CRIT_ERR [99, 109, 100, 108, 105, 110, 101]) :=
  (scan_pid_arg_error_iff [47, 112] [97, 98, 99] [99, 109, 100, 108, 105, 110, 101]).1
    (by decide)

theorem cstr_take_nulfree (t : List Nat) (n : Nat) (h : 0 ∉ t) : 0 ∉ t.take n :=
  fun hm => h (List.mem_of_mem_take hm)

theorem cstr_readlink_buf (target : List Nat) (cap : Nat) (h : 0 ∉ target) :
    cstr (readlink_buf target cap) = target.take cap := by
  unfold readlink_buf
  rw [cstr_append_left _ _ (cstr_take_nulfree target cap h)]
  cases hn : cap - target.length with
  | zero => simp [cstr]
  | succ k => simp [cstr, List.replicate_succ]

/-- C12. For every NUL-free link target and positive capacity, when the link
resolves, `print_pid_readlink` and `print_pid_cwd` (and the routines for exe,
root, fd/0, fd/1, fd/2, which call `print_pid_readlink`) report nothing and
leave in the output buffer the target cut to at most `capacity - 1` bytes,
the whole target when it is shorter than the capacity; when the link does not
resolve they report the read error and store nothing, so that the buffer is
left empty when it was empty. -/
theorem print_pid_readlink_output (fs : Procfs) (s : List Nat) (cap : Nat) (prior : List Nat)
    (hcap : 0 < cap) (hprior : prior.length = cap) :
    (∀ target, fs.readlink s = some target → 0 ∉ target →
      print_pid_readlink fs s cap = ⟨storeAt 0 (target.take (cap - 1) ++ [0]), []⟩ ∧
      print_pid_cwd fs s cap = ⟨storeAt 0 (target.take (cap - 1) ++ [0]), []⟩ ∧
      outText prior (print_pid_readlink fs s cap) = target.take (cap - 1) ∧
      outText prior (print_pid_cwd fs s cap) = target.take (cap - 1) ∧
      (target.length < cap → target.take (cap - 1) = target)) ∧
    (fs.readlink s = none →
      print_pid_readlink fs s cap = ⟨[], [Diag.READERR s]⟩ ∧
      print_pid_cwd fs s cap = ⟨[], [Diag.READERR s]⟩ ∧
      (cstr prior = [] → outText prior (print_pid_readlink fs s cap) = [] ∧
        outText prior (print_pid_cwd fs s cap) = [])) ∧
    print_pid_exe fs s cap = print_pid_readlink fs s cap ∧
    print_pid_chroot fs s cap = print_pid_readlink fs s cap ∧
    print_pid_stdin fs s cap = print_pid_readlink fs s cap ∧
    print_pid_stdout fs s cap = print_pid_readlink fs s cap ∧
    print_pid_stderr fs s cap = print_pid_readlink fs s cap := by
  refine ⟨?_, ?_, rfl, rfl, rfl, rfl, rfl⟩
  · intro target hres h0
    have hw : snprintf 0 (cap : Int) (cstr (readlink_buf target cap)) =
        storeAt 0 (target.take (cap - 1) ++ [0]) := by
      rw [snprintf_nat _ _ hcap, cstr_readlink_buf _ _ h0, List.take_take]
      congr 3
      omega
    have h1 : print_pid_readlink fs s cap = ⟨storeAt 0 (target.take (cap - 1) ++ [0]), []⟩ := by
      simp only [print_pid_readlink, hres, hw]
    have h2 : print_pid_cwd fs s cap = ⟨storeAt 0 (target.take (cap - 1) ++ [0]), []⟩ := by
      simp only [print_pid_cwd, hres, hw]
    have hout : outText prior ⟨storeAt 0 (target.take (cap - 1) ++ [0]), []⟩ =
        target.take (cap - 1) := by
      apply outText_store _ _ _ (cstr_take_nulfree target _ h0)
      rw [List.length_take]
      omega
    refine ⟨h1, h2, by rw [h1]; exact hout, by rw [h2]; exact hout, ?_⟩
    intro hl
    exact List.take_of_length_le (by omega)
  · intro hres
    have h1 : print_pid_readlink fs s cap = ⟨[], [Diag.READERR s]⟩ := by
      simp only [print_pid_readlink, hres]
    have h2 : print_pid_cwd fs s cap = ⟨[], [Diag.READERR s]⟩ := by
      simp only [print_pid_cwd, hres]
    refine ⟨h1, h2, ?_⟩
    intro hp
    rw [h1, h2]
    simpa [outText, applyWrites] using hp

/-- C12, witness: the target `/bin/cat` with capacity 16 is left whole, with
capacity 5 it is cut to `/bin`; an unresolved link leaves an empty buffer empty. -/
theorem print_pid_readlink_output_witness :
    outText (List.replicate 16 7)
      (print_pid_readlink (oneLink [101] [47, 98, 105, 110, 47, 99, 97, 116]) [101] 16) =
        [47, 98, 105, 110, 47, 99, 97, 116] ∧
    outText (List.replicate 5 7)
      (print_pid_cwd (oneLink [101] [47, 98, 105, 110, 47, 99, 97, 116]) [101] 5) =
        [47, 98, 105, 110] ∧
    outText [0, 7, 7, 7, 7] (print_pid_readlink noFile [101] 5) = [] := by
  have h1 := (print_pid_readlink_output (oneLink [101] [47, 98, 105, 110, 47, 99, 97, 116])
    [101] 16 (List.replicate 16 7) (by decide) (by decide)).1
      [47, 98, 105, 110, 47, 99, 97, 116] (by decide) (by decide)
  have h2 := (print_pid_readlink_output (oneLink [101] [47, 98, 105, 110, 47, 99, 97, 116])
    [101] 5 (List.replicate 5 7) (by decide) (by decide)).1
      [47, 98, 105, 110, 47, 99, 97, 116] (by decide) (by decide)
  have h3 := (print_pid_readlink_output noFile [101] 5 [0, 7, 7, 7, 7] (by decide)
    (by decide)).2.1 rfl
  exact ⟨h1.2.2.1, h2.2.2.2.1, (h3.2.2 (by decide)).1⟩

/-- C13 (code defect). The descriptor directory opens and holds only `.` and
`..`: `print_pid_openfiles` performs the single store `p[-2] = 0`, two bytes
below the output buffer, and leaves the buffer as it was (`"junk"` stays
`"junk"`). When the directory cannot be opened the routine stores `p[0] = 0`
and the output is empty. -/
theorem print_pid_openfiles_no_entries :
    print_pid_openfiles emptyFd [102] 8 = ⟨[((-2 : Int), 0)], []⟩ ∧
    ¬ inBounds 8 (print_pid_openfiles emptyFd [102] 8).writes ∧
    outText [106, 117, 110, 107, 0, 0, 0, 0] (print_pid_openfiles emptyFd [102] 8) =
      [106, 117, 110, 107] ∧
    print_pid_openfiles noFile [102] 8 = ⟨[(0, 0)], []⟩ ∧
    outText [106, 117, 110, 107, 0, 0, 0, 0] (print_pid_openfiles noFile [102] 8) = [] := by
  decide

theorem strstr_none (needle : List Nat) :
    ∀ text : List Nat, needle ≠ [] → ¬ needle <:+: text → strstr text needle = none := by
  intro text hne
  induction text with
  | nil =>
    intro _
    cases needle with
    | nil => exact absurd rfl hne
    | cons a b => simp [strstr]
  | cons x xs ih =>
    intro hinf
    have hxs : ¬ needle <:+: xs := fun h => hinf (h.trans (List.suffix_cons x xs).isInfix)
    have hb : needle.isPrefixOf (x :: xs) = false := by
      rw [Bool.eq_false_iff]
      intro h
      rw [List.isPrefixOf_iff_prefix] at h
      exact hinf h.isInfix
    rw [strstr_cons, hb, ih hxs]
    simp

theorem cstr_append_cut (l t : List Nat) : cstr (l ++ 0 :: t) = cstr l := by
  unfold cstr
  induction l with
  | nil => simp
  | cons x xs ih =>
    by_cases hx : x = 0
    · simp [List.takeWhile_cons, hx]
    · simp [List.takeWhile_cons, hx, ih]

theorem cstr_initial (m : List Nat) : cstr m <+: m := List.takeWhile_prefix _

/-- C14, the claim as stated fails. The status content `"Name:\tcat\n"` has no
marker and the output buffer holds `"junk"`: `print_pid_state` reports the
marker-not-found error and the buffer still holds `"junk"`. -/
theorem print_pid_state_no_marker_keeps_buffer :
    print_pid_state (oneFile [115] [78, 97, 109, 101, 58, 9, 99, 97, 116, 10]) [115] [] 8 =
      ⟨[], [Diag.STATENOTFOUND [115]]⟩ ∧
    outText [106, 117, 110, 107, 0, 0, 0, 0]
      (print_pid_state (oneFile [115] [78, 97, 109, 101, 58, 9, 99, 97, 116, 10]) [115] [] 8) =
        [106, 117, 110, 107] := by
  decide

/-- C14 (amended). For every readable status content that does not contain the
marker `"State:\t"`, `print_pid_state` reports the marker-not-found error and
stores nothing in the output buffer, so that a buffer that held the empty
string before the call holds the empty string afterwards. -/
theorem print_pid_state_no_marker (fs : Procfs) (s junk content prior : List Nat) (cap : Nat)
    (hopen : fs.fopen s = some content) (hcap : 0 < cap)
    (hno : ¬ STATE_ENTRY <:+: content) :
    print_pid_state fs s junk cap = ⟨[], [Diag.STATENOTFOUND s]⟩ ∧
    (cstr prior = [] → outText prior (print_pid_state fs s junk cap) = []) := by
  have hmain : print_pid_state fs s junk cap = ⟨[], [Diag.STATENOTFOUND s]⟩ := by
    unfold print_pid_state
    rw [hopen]
    simp only [readAll_eq _ cap hcap]
    have hc : cstr (content ++ [0] ++ junk) = cstr content := by
      rw [List.append_assoc, List.singleton_append]
      exact cstr_append_cut content junk
    rw [hc, strstr_none STATE_ENTRY _ (by decide)
      (fun h => hno (h.trans (cstr_initial content).isInfix))]
  refine ⟨hmain, ?_⟩
  intro hp
  rw [hmain]
  simpa [outText, applyWrites] using hp

/-- C14, witness: the content `"Name:\tcat\n"` and a buffer that held the empty string. -/
theorem print_pid_state_no_marker_witness :
    print_pid_state (oneFile [115] [78, 97, 109, 101, 58, 9, 99, 97, 116, 10]) [115] [7] 8 =
      ⟨[], [Diag.STATENOTFOUND [115]]⟩ ∧
    outText [0, 7, 7, 7, 7, 7, 7, 7]
      (print_pid_state (oneFile [115] [78, 97, 109, 101, 58, 9, 99, 97, 116, 10]) [115] [7] 8) =
        [] := by
  have h := print_pid_state_no_marker (oneFile [115] [78, 97, 109, 101, 58, 9, 99, 97, 116, 10])
    [115] [7] [78, 97, 109, 101, 58, 9, 99, 97, 116, 10] [0, 7, 7, 7, 7, 7, 7, 7] 8
    (by decide) (by decide) (by decide)
  exact ⟨h.1, h.2 (by decide)⟩

/-- C15 (code defect). For the empty environment file the loop of
`print_pid_environ_list` does not run, `i` is still 0, and the routine
performs the single store `buf[i-1] = buf[-1] = 0`, one byte below the read
buffer; the output buffer receives the empty string. -/
theorem print_pid_environ_list_empty_file :
    environ_list_run [] 8 = some ⟨[0], 0, 0, [-1]⟩ ∧
    print_pid_environ_list (oneFile [101] []) [101] 8 = some ⟨[(0, 0)], []⟩ ∧
    outText [106, 117, 110, 107, 0, 0, 0, 0] ⟨[(0, 0)], []⟩ = [] := by
  decide

theorem takeWhile_append_cut (p : Nat → Bool) (v1 v2 : List Nat)
    (h1 : ∀ c ∈ v1, p c = true) (h2 : ∀ c, v2.head? = some c → p c = false) :
    (v1 ++ v2).takeWhile p = v1 := by
  induction v1 with
  | nil =>
    cases v2 with
    | nil => rfl
    | cons x xs => simp [List.takeWhile_cons, h2 x rfl]
  | cons x xs ih =>
    have hx := h1 x (by simp)
    simp only [List.cons_append, List.takeWhile_cons, hx, if_true]
    rw [ih (fun c hc => h1 c (by simp [hc]))]

theorem inRange_iff (c : Nat) : inRange c = true ↔ 1 ≤ c ∧ c ≤ 173 := by
  simp [inRange]

/-- C19. For a readable block and a stored plain name: let `r` be a record whose
key equals the name and whose value is `v1 ++ v2`, where `v1` is not empty,
all bytes of `v1` lie in 1..173 and `v2` is empty or starts with a byte of
174 or above; let every earlier record with that key have a value that is
empty or starts with a byte of 174 or above. Then the earlier records do not
match, and `print_pid_environ` stores exactly `v1`, the longest prefix of the
value with bytes in 1..173, and its terminator. -/
theorem print_pid_environ_value_prefix (fs : Procfs) (ed : environ_data) (cap : Nat)
    (block r v1 v2 prior : List Nat) (pre post : List (List Nat))
    (hopen : fs.fopen ed.file = some block) (hcap : 0 < cap) (hp : PlainName ed.var)
    (hrecs : records block = pre ++ r :: post)
    (hpre : ∀ x ∈ pre, hasKey x ed.var = true → ∀ c, (recValue x).head? = some c → 174 ≤ c)
    (hkey : hasKey r ed.var = true) (hval : recValue r = v1 ++ v2) (hv1 : v1 ≠ [])
    (hin : ∀ c ∈ v1, 1 ≤ c ∧ c ≤ 173) (hcut : ∀ c, v2.head? = some c → 174 ≤ c) :
    (∀ x ∈ pre, environ_match ed.var x = none) ∧
    print_pid_environ fs ed cap = some ⟨storeAt 0 (v1 ++ [0]), []⟩ ∧
    (v1.length < prior.length → outText prior ⟨storeAt 0 (v1 ++ [0]), []⟩ = v1) := by
  have hnone : ∀ x ∈ pre, environ_match ed.var x = none := by
    intro x hx
    unfold environ_match
    by_cases hk : hasKey x ed.var = true
    · have htw : (recValue x).takeWhile inRange = [] := by
        cases hv : recValue x with
        | nil => rfl
        | cons c cs =>
          have hc := hpre x hx hk c (by rw [hv]; rfl)
          have : inRange c = false := by
            rw [Bool.eq_false_iff, Ne, inRange_iff]; omega
          simp [List.takeWhile_cons, this]
      simp [htw]
    · simp [hk]
  have hsome : environ_match ed.var r = some v1 := by
    unfold environ_match
    have htw : (recValue r).takeWhile inRange = v1 := by
      rw [hval]
      apply takeWhile_append_cut
      · intro c hc
        exact (inRange_iff c).2 (hin c hc)
      · intro c hc
        have := hcut c hc
        rw [Bool.eq_false_iff, Ne, inRange_iff]; omega
    rw [htw]
    have : v1.isEmpty = false := by
      cases v1 with
      | nil => exact absurd rfl hv1
      | cons _ _ => rfl
    simp [hkey, this]
  refine ⟨hnone, ?_, ?_⟩
  · rw [print_pid_environ_eq fs ed cap block hopen hcap hp, hrecs]
    have hfs : (pre ++ r :: post).findSome? (environ_match ed.var) = some v1 := by
      rw [List.findSome?_append]
      have : pre.findSome? (environ_match ed.var) = none := by
        rw [List.findSome?_eq_none_iff]; exact hnone
      rw [this]
      simp [List.findSome?_cons, hsome]
    rw [hfs]
  · intro hlen
    apply outText_store _ _ _ _ hlen
    intro h0
    have := hin 0 h0
    omega

/-- C19, witness: the block `"FOO=\0"`, `"FOO=\xC3\xA9\0"`, `"FOO=ab\xC3\xA9z\0"`,
`"FOO=zz\0"` with the stored name `FOO` yields `"ab"`. -/
theorem print_pid_environ_value_prefix_witness :
    print_pid_environ
        (oneFile [101] [70, 79, 79, 61, 0, 70, 79, 79, 61, 195, 169, 0,
          70, 79, 79, 61, 97, 98, 195, 169, 122, 0, 70, 79, 79, 61, 122, 122, 0])
        ⟨[70, 79, 79], [101]⟩ 16 = some ⟨storeAt 0 ([97, 98] ++ [0]), []⟩ ∧
    outText (List.replicate 16 7) ⟨storeAt 0 ([97, 98] ++ [0]), []⟩ = [97, 98] := by
  have h := print_pid_environ_value_prefix
    (oneFile [101] [70, 79, 79, 61, 0, 70, 79, 79, 61, 195, 169, 0,
      70, 79, 79, 61, 97, 98, 195, 169, 122, 0, 70, 79, 79, 61, 122, 122, 0])
    ⟨[70, 79, 79], [101]⟩ 16
    [70, 79, 79, 61, 0, 70, 79, 79, 61, 195, 169, 0,
      70, 79, 79, 61, 97, 98, 195, 169, 122, 0, 70, 79, 79, 61, 122, 122, 0]
    [70, 79, 79, 61, 97, 98, 195, 169, 122] [97, 98] [195, 169, 122] (List.replicate 16 7)
    [[70, 79, 79, 61], [70, 79, 79, 61, 195, 169]] [[70, 79, 79, 61, 122, 122]]
    (by decide) (by decide) (by decide) (by decide) (by decide) (by decide) (by decide)
    (by decide) (by decide) (by decide)
  exact ⟨h.2.1, h.2.2 (by decide)⟩

theorem dropWhile_append_cut (p : Nat → Bool) (v1 v2 : List Nat)
    (h1 : ∀ c ∈ v1, p c = true) (h2 : ∀ c, v2.head? = some c → p c = false) :
    (v1 ++ v2).dropWhile p = v2 := by
  induction v1 with
  | nil =>
    cases v2 with
    | nil => rfl
    | cons x xs => simp [List.dropWhile_cons, h2 x rfl]
  | cons x xs ih =>
    have hx := h1 x (by simp)
    simp only [List.cons_append, List.dropWhile_cons, hx, if_true]
    exact ih (fun c hc => h1 c (by simp [hc]))

theorem sscanf_ds_def (arg : List Nat) :
    sscanf 2 arg [37, 100, 32, 37, 115] =
      some (scanRun [Directive.dec, Directive.space, Directive.str] (cstr arg) []) := by
  have hparse : parseFormat ([37, 100, 32, 37, 115].length + 1) (cstr [37, 100, 32, 37, 115]) =
      some [Directive.dec, Directive.space, Directive.str] := by decide
  have hc : conversions [Directive.dec, Directive.space, Directive.str] ≤ 2 := by decide
  unfold sscanf
  rw [hparse]
  simp only [hc, if_true]

theorem isdigit_iff (c : Nat) : isdigit c = true ↔ 48 ≤ c ∧ c ≤ 57 := by
  simp [isdigit]

theorem isspace_iff (c : Nat) : isspace c = true ↔ c = 32 ∨ (9 ≤ c ∧ c ≤ 13) := by
  simp [isspace]

theorem isNameChar_iff (c : Nat) : isNameChar c = true ↔
    (65 ≤ c ∧ c ≤ 90) ∨ (97 ≤ c ∧ c ≤ 122) ∨ (48 ≤ c ∧ c ≤ 57) ∨ c = 95 := by
  simp [isNameChar, or_assoc]

/-- The decimal conversion on a text that starts with the digits `pid`
followed by a byte that is not a digit. -/
theorem scanRun_dec_digits (pid rest : List Nat) (ds : List Directive)
    (hne : pid ≠ []) (hdig : ∀ c ∈ pid, isdigit c = true) (hval : digitsVal pid < 2 ^ 31)
    (hrest : ∀ c, rest.head? = some c → isdigit c = false) :
    scanRun (Directive.dec :: ds) (pid ++ rest) [] =
      scanRun ds rest [Arg.int (digitsVal pid : Nat)] := by
  cases hp : pid with
  | nil => exact absurd hp hne
  | cons x xs =>
    rw [← hp]
    have hx : 48 ≤ x ∧ x ≤ 57 := (isdigit_iff x).1 (hdig x (by rw [hp]; simp))
    have hxs : isspace x = false := by
      rw [Bool.eq_false_iff, Ne, isspace_iff]; omega
    have hsp : (pid ++ rest).dropWhile isspace = x :: (xs ++ rest) := by
      rw [hp, List.cons_append, List.dropWhile_cons]
      simp [hxs]
    rw [scanRun, hsp]
    simp only
    have hx43 : x ≠ 43 := by omega
    have hx45 : x ≠ 45 := by omega
    simp only [hx43, hx45, or_self, if_false]
    have hcons : x :: (xs ++ rest) = pid ++ rest := by rw [hp]; rfl
    rw [hcons, takeWhile_append_cut isdigit pid rest hdig hrest,
      dropWhile_append_cut isdigit pid rest hdig hrest]
    have hemp : pid.isEmpty = false := by rw [hp]; rfl
    simp only [hemp, Bool.false_eq_true, if_false, List.nil_append]
    rw [toInt32_small _ hval]

/-- The decimal conversion fails on an argument that has no leading integer. -/
theorem scanRun_dec_fail (arg : List Nat) (ds : List Directive)
    (h : leadingInt arg = false) :
    (scanRun (Directive.dec :: ds) (cstr arg) []).args = [] := by
  unfold leadingInt at h
  rw [scanRun]
  cases hd : (cstr arg).dropWhile isspace with
  | nil => simp [inputFailure]
  | cons x xs =>
    rw [hd] at h
    simp only at h ⊢
    rw [takeWhile_isEmpty_head]
    simp [h, scanStop]

theorem toupper_idem (c : Nat) : toupper (toupper c) = toupper c := by
  unfold toupper
  split_ifs <;> omega

theorem toupper_not_lower (c : Nat) : islower (toupper c) = false := by
  unfold toupper islower
  rw [Bool.eq_false_iff]
  simp only [ne_eq, Bool.and_eq_true, decide_eq_true_eq]
  split_ifs <;> omega

theorem toupper_of_not_lower (c : Nat) (h : islower c = false) : toupper c = c := by
  unfold toupper
  unfold islower at h
  have : ¬ (97 ≤ c ∧ c ≤ 122) := by
    intro hc
    simp [hc.1, hc.2] at h
  simp [this]

/-- C11. For every argument `pid ++ " " ++ name` where `pid` is a run of decimal
digits with a value below 2^31 and `name` is a non-empty run of letters,
digits and underscores, `scan_pid_environ_arg` succeeds and stores the
variable name `name` with `toupper` applied to every byte (non-empty, free of
lower-case letters, unchanged by a second folding, and equal to `name` when
`name` has no lower-case letter) together with the path
`PROCDIR "/" <pid in decimal> "/environ"`, which repeats `pid` as given when
`pid` has no leading zero. An argument without a leading integer, and an
argument made of the digits followed only by white space, signal the fatal
error. -/
theorem scan_pid_environ_arg_fold (PROCDIR pid name : List Nat)
    (hne : pid ≠ []) (hdig : ∀ c ∈ pid, isdigit c = true) (hval : digitsVal pid < 2 ^ 31)
    (hname : name ≠ []) (hchars : ∀ c ∈ name, isNameChar c = true) :
    scan_pid_environ_arg PROCDIR (pid ++ [32] ++ name) =
      some (ScanResult.stored ⟨name.map toupper,
        PROCDIR ++ [47] ++ decimal (digitsVal pid) ++ [47, 101, 110, 118, 105, 114, 111, 110]⟩) ∧
    name.map toupper ≠ [] ∧
    (∀ c ∈ name.map toupper, islower c = false) ∧
    (name.map toupper).map toupper = name.map toupper ∧
    ((∀ c ∈ name, islower c = false) → name.map toupper = name) ∧
    ((pid.head? = some 48 → pid = [48]) → decimal (digitsVal pid) = pid) ∧
    (∀ arg, leadingInt arg = false →
      scan_pid_environ_arg PROCDIR arg =
        some (ScanResult.CRIT_ERR [101, 110, 118, 105, 114, 111, 110])) ∧
    (∀ ws, (∀ c ∈ ws, isspace c = true) →
      scan_pid_environ_arg PROCDIR (pid ++ ws) =
        some (ScanResult.CRIT_ERR [101, 110, 118, 105, 114, 111, 110])) := by
  have hdig2 : ∀ c ∈ pid, 48 ≤ c ∧ c ≤ 57 := fun c hc => (isdigit_iff c).1 (hdig c hc)
  have hch2 : ∀ c ∈ name, (65 ≤ c ∧ c ≤ 90) ∨ (97 ≤ c ∧ c ≤ 122) ∨ (48 ≤ c ∧ c ≤ 57) ∨ c = 95 :=
    fun c hc => (isNameChar_iff c).1 (hchars c hc)
  have hnsp : ∀ c ∈ name, isspace c = false := by
    intro c hc
    have := hch2 c hc
    rw [Bool.eq_false_iff, Ne, isspace_iff]; omega
  refine ⟨?_, ?_, ?_, ?_, ?_, ?_, ?_, ?_⟩
  · have h0 : 0 ∉ pid ++ [32] ++ name := by
      intro h
      simp only [List.mem_append, List.mem_singleton] at h
      rcases h with (h | h) | h
      · have := hdig2 0 h; omega
      · omega
      · have := hch2 0 h; omega
    unfold scan_pid_environ_arg
    rw [sscanf_ds_def, cstr_of_nulfree _ h0, List.append_assoc,
      scanRun_dec_digits pid ([32] ++ name) _ hne hdig hval
        (by intro c hc; simp at hc; subst hc; decide)]
    cases hn : name with
    | nil => exact absurd hn hname
    | cons y ys =>
      have hy : isspace y = false := hnsp y (by rw [hn]; simp)
      have h1 : ([32] ++ y :: ys).dropWhile isspace = y :: ys := by
        have h32 : isspace 32 = true := by decide
        simp [List.dropWhile_cons, h32, hy]
      have h2 : (y :: ys).dropWhile isspace = y :: ys := by
        simp [List.dropWhile_cons, hy]
      rw [scanRun, h1, scanRun, h2]
      simp only
      have hall : ∀ c ∈ y :: ys, (!isspace c) = true := by
        intro c hc
        rw [← hn] at hc
        simp [hnsp c hc]
      rw [takeWhile_all _ _ hall, dropWhile_all _ _ hall]
      simp only [scanRun, scanStop, List.singleton_append, List.length_cons, List.length_nil,
        Option.map_some']
      have hpd : printf_d ((digitsVal pid : Nat) : Int) = decimal (digitsVal pid) := by
        unfold printf_d
        have : ¬ (((digitsVal pid : Nat) : Int) < 0) := by omega
        simp only [this, if_false, Int.natAbs_ofNat]
      rw [show ((0 + 1 + 1 : Nat) : Int) = 2 from rfl]
      simp only [hpd]
  · cases name with
    | nil => exact absurd rfl hname
    | cons y ys => simp
  · intro c hc
    obtain ⟨d, _, rfl⟩ := List.mem_map.1 hc
    exact toupper_not_lower d
  · rw [List.map_map]
    apply List.map_congr_left
    intro c _
    exact toupper_idem c
  · intro hl
    conv_rhs => rw [← List.map_id name]
    apply List.map_congr_left
    intro c hc
    exact toupper_of_not_lower c (hl c hc)
  · intro hlead
    exact decimal_digitsVal pid hne hdig hlead
  · intro arg hl
    unfold scan_pid_environ_arg
    rw [sscanf_ds_def]
    have ha := scanRun_dec_fail arg [Directive.space, Directive.str] hl
    generalize scanRun [Directive.dec, Directive.space, Directive.str] (cstr arg) [] = out at ha
    obtain ⟨ret, args⟩ := out
    simp only at ha
    subst ha
    simp only [Option.map_some']
  · intro ws hws
    have hws2 : ∀ c ∈ ws, c = 32 ∨ (9 ≤ c ∧ c ≤ 13) := fun c hc => (isspace_iff c).1 (hws c hc)
    have h0 : 0 ∉ pid ++ ws := by
      intro h
      rcases List.mem_append.1 h with h | h
      · have := hdig2 0 h; omega
      · have := hws2 0 h; omega
    unfold scan_pid_environ_arg
    rw [sscanf_ds_def, cstr_of_nulfree _ h0,
      scanRun_dec_digits pid ws _ hne hdig hval (by
        intro c hc
        have hm : c ∈ ws := List.mem_of_mem_head? hc
        have := hws2 c hm
        rw [Bool.eq_false_iff, Ne, isdigit_iff]; omega)]
    rw [scanRun, dropWhile_all _ _ hws, scanRun]
    simp [inputFailure]

/-- C11, witness: the argument `12 Foo_1` stores the name `FOO_1` and the path
with the components `12` and `environ`; the arguments `abc` and `12` signal the
error. -/
theorem scan_pid_environ_arg_fold_witness :
    scan_pid_environ_arg [47, 112] ([49, 50] ++ [32] ++ [70, 111, 111, 95, 49]) =
      some (ScanResult.stored ⟨[70, 79, 79, 95, 49],
        [47, 112, 47, 49, 50, 47, 101, 110, 118, 105, 114, 111, 110]⟩) ∧
    scan_pid_environ_arg [47, 112] [97, 98, 99] =
      some (ScanResult.CRIT_ERR [101, 110, 118, 105, 114, 111, 110]) ∧
    scan_pid_environ_arg [47, 112] ([49, 50] ++ []) =
      some (ScanResult.CRIT_ERR [101, 110, 118, 105, 114, 111, 110]) := by
  have h := scan_pid_environ_arg_fold [47, 112] [49, 50] [70, 111, 111, 95, 49]
    (by decide) (by decide) (by decide) (by decide) (by decide)
  exact ⟨h.1, h.2.2.2.2.2.2.1 [97, 98, 99] (by decide), h.2.2.2.2.2.2.2 [] (by decide)⟩

theorem chainFrom_length (L : List (List Nat)) : ∀ k, (chainFrom k L).length = L.length := by
  induction L with
  | nil => intro k; rfl
  | cons x t ih =>
    intro k
    cases t with
    | nil => rfl
    | cons y t2 =>
      simp only [chainFrom, List.length_cons]
      rw [ih (k + 1)]
      rfl

theorem chainFrom_snoc (L : List (List Nat)) (x : List Nat) :
    ∀ k, L ≠ [] →
      setNext (chainFrom k L ++ [⟨x, none⟩]) (L.length - 1) (some (k + L.length)) =
        chainFrom k (L ++ [x]) := by
  induction L with
  | nil => intro k h; exact absurd rfl h
  | cons a t ih =>
    intro k _
    cases t with
    | nil => simp [chainFrom, setNext]
    | cons b t2 =>
      have h := ih (k + 1) (by simp)
      simp only [List.length_cons, Nat.add_sub_cancel] at h ⊢
      simp only [chainFrom, List.cons_append, setNext]
      congr 1
      have e : k + 1 + (t2.length + 1) = k + (t2.length + 1 + 1) := by omega
      rw [e] at h
      exact h

/-- The state after appending `strs`, in closed form. -/
theorem ll_build_eq (strs : List (List Nat)) :
    ll_build strs = ⟨chainFrom 0 (strs.map cstr),
      if strs = [] then none else some 0,
      if strs = [] then none else some (strs.length - 1)⟩ := by
  induction strs using List.reverseRecOn with
  | nil => rfl
  | append_singleton l x ih =>
    unfold ll_build at ih ⊢
    rw [List.foldl_append, ih]
    simp only [List.foldl_cons, List.foldl_nil, ll_append, ll_addnode, chainFrom_length,
      List.length_map, List.map_append, List.map_cons, List.map_nil]
    cases l with
    | nil => simp [chainFrom]
    | cons a t =>
      have h := chainFrom_snoc ((a :: t).map cstr) (cstr x) 0 (by simp)
      simp only [List.length_map, Nat.zero_add] at h
      simp only [if_neg (List.cons_ne_nil a t), List.length_cons, Nat.add_sub_cancel] at h ⊢
      simp only [List.map_cons, List.cons_append] at h
      simp [h]

theorem chainFrom_get (L : List (List Nat)) :
    ∀ k j : Nat, (chainFrom k L)[j]? =
      (L[j]?).map
        (fun x => (⟨x, if j + 1 < L.length then some (k + j + 1) else none⟩ : ll_node)) := by
  induction L with
  | nil => intro k j; simp [chainFrom]
  | cons a t ih =>
    intro k j
    cases t with
    | nil =>
      cases j with
      | zero => simp [chainFrom]
      | succ j => simp [chainFrom]
    | cons b t2 =>
      cases j with
      | zero => simp [chainFrom]
      | succ j =>
        simp only [chainFrom, List.getElem?_cons_succ, List.length_cons]
        rw [ih (k + 1) j]
        simp only [List.length_cons]
        congr 1
        funext x
        congr 1
        have e : k + 1 + j + 1 = k + (j + 1) + 1 := by omega
        rw [e]
        simp

theorem ll_strings_chain (L : List (List Nat)) (fuel : Nat) :
    ∀ j, L.length - j < fuel →
      ll_strings fuel (chainFrom 0 L) (if j < L.length then some j else none) = L.drop j := by
  induction fuel with
  | zero => intro j h; omega
  | succ n ih =>
    intro j h
    by_cases hj : j < L.length
    · simp only [hj, if_true, ll_strings]
      rw [chainFrom_get, List.getElem?_eq_getElem hj]
      simp only [Option.map_some', Nat.zero_add]
      have := ih (j + 1) (by omega)
      rw [this]
      exact (List.drop_eq_getElem_cons hj).symm
    · simp only [hj, if_false]
      rw [List.drop_eq_nil_of_le (by omega)]
      rfl

theorem ll_inlist_from_eq (fuel : Nat) (heap : List ll_node) (s : List Nat) :
    ∀ p, ll_inlist_from fuel heap p s = if cstr s ∈ ll_strings fuel heap p then 1 else 0 := by
  induction fuel with
  | zero => intro p; simp [ll_inlist_from, ll_strings]
  | succ n ih =>
    intro p
    cases p with
    | none => simp [ll_inlist_from, ll_strings]
    | some a =>
      rcases hh : heap[a]? with _ | node
      · simp [ll_inlist_from, ll_strings, hh]
      · simp only [ll_inlist_from, ll_strings, hh, List.mem_cons]
        by_cases hs : node.string = cstr s
        · simp [hs]
        · have : ¬ cstr s = node.string := fun e => hs e.symm
          simp [hs, this, ih]

theorem foldl_addnode (strs : List (List Nat)) :
    ∀ acc : ll_string, strs.foldl addnode acc = acc ++ strs.map cstr := by
  induction strs with
  | nil => intro acc; simp
  | cons x t ih => intro acc; simp [ih, addnode]

/-- C17. For every sequence of strings appended with `addnode` to the empty list
as `print_pid_openfiles` does it (the front is the first node returned), and
every string `s`: the nodes reached from the front hold the appended strings,
all of them and in the order of appending; `inlist(front, s)` is 1 when `s`
equals one of the appended strings and 0 otherwise; `inlist(NULL, s)` is 0;
and the routine on nodes and addresses agrees with its model on lists. -/
theorem inlist_addnode_membership (strs : List (List Nat)) (s : List Nat) :
    ll_strings ((ll_build strs).heap.length + 1) (ll_build strs).heap (ll_build strs).files_front =
      strs.map cstr ∧
    (ll_inlist (ll_build strs).heap (ll_build strs).files_front s = 1 ↔
      cstr s ∈ strs.map cstr) ∧
    (ll_inlist (ll_build strs).heap (ll_build strs).files_front s = 0 ↔
      cstr s ∉ strs.map cstr) ∧
    ll_inlist [] none s = 0 ∧
    inlist (strs.foldl addnode []) s =
      ll_inlist (ll_build strs).heap (ll_build strs).files_front s ∧
    (∀ x, ll_strings ((ll_build (strs ++ [x])).heap.length + 1) (ll_build (strs ++ [x])).heap
        (ll_build (strs ++ [x])).files_front =
      ll_strings ((ll_build strs).heap.length + 1) (ll_build strs).heap
        (ll_build strs).files_front ++ [cstr x]) := by
  have hstr : ∀ l : List (List Nat),
      ll_strings ((ll_build l).heap.length + 1) (ll_build l).heap (ll_build l).files_front =
        l.map cstr := by
    intro l
    rw [ll_build_eq]
    simp only [chainFrom_length, List.length_map]
    have h := ll_strings_chain (l.map cstr) (l.length + 1) 0 (by simp)
    simp only [List.length_map, List.drop_zero] at h
    cases l with
    | nil => rfl
    | cons a t =>
      simp only [List.length_cons, Nat.zero_lt_succ, if_true] at h
      simpa using h
  have hin : ll_inlist (ll_build strs).heap (ll_build strs).files_front s =
      if cstr s ∈ strs.map cstr then 1 else 0 := by
    unfold ll_inlist
    rw [ll_inlist_from_eq, hstr]
  refine ⟨hstr strs, ?_, ?_, rfl, ?_, ?_⟩
  · rw [hin]; split_ifs with h <;> simp [h]
  · rw [hin]; split_ifs with h <;> simp [h]
  · rw [hin, inlist_eq, foldl_addnode]
    simp
  · intro x
    rw [hstr, hstr]
    simp

theorem environ_list_loop_succ (fuel total_read : Nat) (st : ListRun) :
    environ_list_loop (fuel + 1) total_read st =
      if st.bytes_read < total_read then
        (environ_list_iter st).bind (environ_list_loop fuel total_read)
      else some st := by
  rw [environ_list_loop]
  unfold environ_list_iter
  by_cases h : st.bytes_read < total_read
  · simp only [h, if_true]
    cases sscanf 1 (cstrAt st.buf st.bytes_read) [37, 91, 94, 61, 93] with
    | none => rfl
    | some out =>
      simp only
      split <;> rfl
  · simp only [h, if_false]

theorem sscanf_key_any (r : List Nat) (h0 : 0 ∉ r) :
    ∃ out, sscanf 1 r [37, 91, 94, 61, 93] = some out ∧
      out.args = if recKey r = [] then [] else [Arg.str (recKey r)] := by
  by_cases hk : recKey r = []
  · have hparse : parseFormat ([37, 91, 94, 61, 93].length + 1) (cstr [37, 91, 94, 61, 93]) =
        some [Directive.set true [(61, 61)]] := by decide
    have hc : conversions [Directive.set true [(61, 61)]] = 1 := by decide
    refine ⟨scanRun [Directive.set true [(61, 61)]] r [], ?_, ?_⟩
    · unfold sscanf
      rw [hparse, cstr_of_nulfree r h0]
      simp only [hc, le_refl, if_true]
    · simp only [hk, if_true]
      cases r with
      | nil => simp [scanRun, inputFailure]
      | cons x xs =>
        have hx : x = 61 := by
          by_contra hne
          simp [recKey, List.takeWhile_cons, hne] at hk
        subst hx
        have : inSet true [(61, 61)] 61 = false := by decide
        simp [scanRun, this, scanStop]
  · exact ⟨_, sscanf_key r h0 hk, by simp [hk]⟩

theorem storeAt_indices (bytes : List Nat) :
    ∀ (off : Int) (k : Int), k ∈ (storeAt off bytes).map Prod.fst →
      off ≤ k ∧ k < off + bytes.length := by
  induction bytes with
  | nil => intro off k h; simp [storeAt] at h
  | cons b bs ih =>
    intro off k h
    simp only [storeAt, List.map_cons, List.mem_cons] at h
    rcases h with h | h
    · subst h; simp only [List.length_cons]; push_cast; omega
    · have := ih (off + 1) k h
      simp only [List.length_cons]; push_cast; omega

theorem le_cstr_length (m : List Nat) (n : Nat) (h : 0 ∉ m.take n) (hn : n ≤ m.length) :
    n ≤ (cstr m).length := by
  have e : cstr m = m.take n ++ cstr (m.drop n) := by
    conv_lhs => rw [← List.take_append_drop n m]
    exact cstr_append_left _ _ h
  rw [e, List.length_append, List.length_take]
  omega

theorem cstr_split (m a b : List Nat) (h : m = a ++ 0 :: b) :
    m = cstr m ++ 0 :: m.drop ((cstr m).length + 1) ∧ (cstr m).length ≤ a.length := by
  subst h
  induction a with
  | nil => simp [cstr]
  | cons x xs ih =>
    by_cases hx : x = 0
    · subst hx; simp [cstr]
    · have hc : cstr (x :: xs ++ 0 :: b) = x :: cstr (xs ++ 0 :: b) := by
        simp [cstr, List.takeWhile_cons, hx]
      rw [hc]
      simp only [List.cons_append, List.length_cons, List.drop_succ_cons]
      refine ⟨?_, by omega⟩
      congr 1
      exact ih.1

/-- The second half of a round: `i = strlen(buf) + 1; buf[i-1] = ';'` on a
buffer that has a NUL below `br2` and none below `iN`. -/
theorem compact_finish (m a b : List Nat) (br2 iN : Nat)
    (hdec : m = a ++ 0 :: b) (ha : a.length < br2)
    (hnul : 0 ∉ m.take iN) (hiN : iN ≤ m.length) :
    m.contains 0 = true ∧ iN ≤ (cstr m).length ∧ (cstr m).length < br2 ∧
    (poke m (((cstr m).length : Int) + 1 - 1, 59)).length = m.length ∧
    (poke m (((cstr m).length : Int) + 1 - 1, 59)).drop br2 = m.drop br2 ∧
    0 ∉ (poke m (((cstr m).length : Int) + 1 - 1, 59)).take ((cstr m).length + 1) := by
  obtain ⟨hsp, hle⟩ := cstr_split m a b hdec
  have hc : m.contains 0 = true := by rw [hdec]; simp
  have hge := le_cstr_length m iN hnul hiN
  have hc0 : 0 ∉ cstr m := cstr_nulfree m
  generalize cstr m = c at hsp hle hge hc0 ⊢
  generalize m.drop (c.length + 1) = rest at hsp
  clear hdec hnul hiN
  subst hsp
  have hpoke : poke (c ++ 0 :: rest) ((c.length : Int) + 1 - 1, 59) = c ++ 59 :: rest :=
    poke_at_length _ _ 0 59 _ (by simp)
  rw [hpoke]
  refine ⟨hc, hge, by omega, by simp, ?_, ?_⟩
  · have h1 : c ++ 59 :: rest = (c ++ [59]) ++ rest := by simp
    have h2 : c ++ 0 :: rest = (c ++ [0]) ++ rest := by simp
    have f : ∀ y : Nat, (c ++ [y] ++ rest).drop br2 = rest.drop (br2 - (c.length + 1)) := by
      intro y
      rw [List.drop_append_eq_append_drop, List.drop_eq_nil_of_le (by simp; omega)]
      simp
    rw [h1, h2, f, f]
  · have h1 : c ++ 59 :: rest = (c ++ [59]) ++ rest := by simp
    rw [h1, List.take_left' (by simp)]
    intro h
    rcases List.mem_append.1 h with h | h
    · exact hc0 h
    · simp at h

/-- One round of the compaction loop keeps the invariant. -/
theorem environ_list_iter_inv (content : List Nat) (st : ListRun)
    (hinv : CompactInv content st) (hbr : st.bytes_read < content.length) :
    ∃ st2, environ_list_iter st = some st2 ∧ CompactInv content st2 ∧ 1 ≤ st2.i ∧
      st.bytes_read < st2.bytes_read := by
  obtain ⟨buf, br, i, stores⟩ := st
  obtain ⟨hlen, hdrop, hble, hi0, hile, hnul, hflag, hst⟩ := hinv
  simp only at hlen hdrop hble hi0 hile hnul hflag hst hbr ⊢
  obtain ⟨iN, rfl⟩ := Int.eq_ofNat_of_zero_le hi0
  have hiN : iN ≤ br := by exact_mod_cast hile
  simp only [Int.toNat_ofNat] at hnul
  have h1 : (content ++ [0]).drop br = content.drop br ++ [0] :=
    List.drop_append_of_le_length (Nat.le_of_lt hbr)
  have h2 := split_first_record (content.drop br)
  rw [← h1, List.drop_drop] at h2
  generalize hrdef : cstr (content.drop br) = r at h2
  have hr0 : 0 ∉ r := by rw [← hrdef]; exact cstr_nulfree _
  generalize htl : (content ++ [0]).drop (br + (r.length + 1)) = tl at h2
  have hbd : buf.drop br = r ++ 0 :: tl := hdrop.trans h2
  have hbuf : buf = buf.take br ++ (r ++ 0 :: tl) := by
    rw [← hbd, List.take_append_drop]
  have htk : (buf.take br).length = br := by rw [List.length_take]; omega
  have hL : br + r.length + 1 + tl.length = content.length + 1 := by
    have := congrArg List.length hbuf
    simp only [List.length_append, List.length_cons, htk, hlen] at this
    omega
  have hcs : cstrAt buf br = r := by
    unfold cstrAt; rw [hbd]; exact cstr_append_nul r tl hr0
  have hd2 : buf.drop (br + r.length + 1) = tl := by
    have e : br + r.length + 1 = br + (r.length + 1) := by omega
    rw [e, ← List.drop_drop, hbd]
    have : r ++ 0 :: tl = (r ++ [0]) ++ tl := by simp
    rw [this, List.drop_left' (by simp)]
  have htl2 : (content ++ [0]).drop (br + r.length + 1) = tl := by
    rw [← htl]; congr 1
  obtain ⟨out, hout, hargs⟩ := sscanf_key_any r hr0
  have hkl : (recKey r).length ≤ r.length := (List.takeWhile_sublist _).length_le
  unfold environ_list_iter
  simp only [hcs, hout, hargs]
  by_cases hk : recKey r = []
  · simp only [hk, if_true, applyWrites, List.foldl_nil, List.map_nil, List.append_nil]
    obtain ⟨f1, f2, f3, f4, f5, f6⟩ := compact_finish buf (buf.take br ++ r) tl
      (br + r.length + 1) iN (by rw [List.append_assoc]; exact hbuf)
      (by rw [List.length_append, htk]; omega) hnul (by omega)
    simp only [f1, if_true]
    refine ⟨_, rfl, ⟨?_, ?_, ?_, ?_, ?_, ?_, ?_, ?_⟩, ?_, ?_⟩
    · simp only; rw [f4, hlen]
    · simp only; rw [f5, hd2, htl2]
    · simp only; omega
    · simp only; omega
    · simp only; push_cast; omega
    · simp only
      have e : (((cstr buf).length : Int) + 1).toNat = (cstr buf).length + 1 := by omega
      rw [e]; exact f6
    · right; simp only; omega
    · intro k hk2
      simp only [List.mem_append, List.mem_singleton] at hk2
      rcases hk2 with hk2 | hk2
      · have := hst k hk2
        simp only; push_cast; omega
      · subst hk2
        simp only; push_cast; omega
    · simp only; omega
    · simp only; omega
  · simp only [hk, if_false]
    have hw : applyWrites buf (storeAt (iN : Int) (recKey r ++ [0])) =
        (buf.take iN ++ recKey r) ++ 0 :: buf.drop (iN + (recKey r).length + 1) := by
      rw [applyWrites_storeAt _ _ _ (by simp; omega)]
      simp [Nat.add_assoc]
    rw [hw]
    have hnul2 : 0 ∉ ((buf.take iN ++ recKey r) ++
        0 :: buf.drop (iN + (recKey r).length + 1)).take iN := by
      rw [List.append_assoc, List.take_left' (by rw [List.length_take]; omega)]
      exact hnul
    have hlen2 : ((buf.take iN ++ recKey r) ++
        0 :: buf.drop (iN + (recKey r).length + 1)).length = buf.length := by
      simp only [List.length_append, List.length_cons, List.length_take, List.length_drop]
      omega
    obtain ⟨f1, f2, f3, f4, f5, f6⟩ := compact_finish
      ((buf.take iN ++ recKey r) ++ 0 :: buf.drop (iN + (recKey r).length + 1))
      (buf.take iN ++ recKey r) (buf.drop (iN + (recKey r).length + 1))
      (br + r.length + 1) iN rfl
      (by simp only [List.length_append, List.length_take]; omega) hnul2 (by omega)
    have hcl : (cstr ((buf.take iN ++ recKey r) ++
        0 :: buf.drop (iN + (recKey r).length + 1))).length = iN + (recKey r).length := by
      rw [cstr_append_nul _ _ (by
        intro h
        rcases List.mem_append.1 h with h | h
        · exact hnul h
        · exact recKey_nulfree r hr0 h)]
      simp only [List.length_append, List.length_take]
      omega
    have hdr : ((buf.take iN ++ recKey r) ++
        0 :: buf.drop (iN + (recKey r).length + 1)).drop (br + r.length + 1) = tl := by
      have e : (buf.take iN ++ recKey r) ++ 0 :: buf.drop (iN + (recKey r).length + 1) =
          (buf.take iN ++ recKey r ++ [0]) ++ buf.drop (iN + (recKey r).length + 1) := by simp
      rw [e, List.drop_append_eq_append_drop,
        List.drop_eq_nil_of_le (by
          simp only [List.length_append, List.length_take, List.length_cons, List.length_nil]
          omega)]
      simp only [List.nil_append, List.length_append, List.length_take, List.length_cons,
        List.length_nil, List.drop_drop]
      rw [← hd2]
      congr 1
      omega
    simp only [f1, if_true]
    refine ⟨_, rfl, ⟨?_, ?_, ?_, ?_, ?_, ?_, ?_, ?_⟩, ?_, ?_⟩
    · simp only; rw [f4, hlen2, hlen]
    · simp only; rw [f5, hdr, htl2]
    · simp only; omega
    · simp only; omega
    · simp only; push_cast; omega
    · simp only
      have e : (((cstr ((buf.take iN ++ recKey r) ++
          0 :: buf.drop (iN + (recKey r).length + 1))).length : Int) + 1).toNat =
          (cstr ((buf.take iN ++ recKey r) ++
            0 :: buf.drop (iN + (recKey r).length + 1))).length + 1 := by omega
      rw [e]; exact f6
    · right; simp only; omega
    · intro k hk2
      simp only [List.mem_append, List.mem_singleton] at hk2
      rcases hk2 with (hk2 | hk2) | hk2
      · have := hst k hk2
        simp only; push_cast; omega
      · have := storeAt_indices _ _ _ hk2
        simp only [List.length_append, List.length_cons, List.length_nil] at this
        simp only; push_cast at this ⊢; omega
      · subst hk2
        simp only; push_cast; omega
    · simp only; omega
    · simp only; omega

theorem environ_list_after_inv (content : List Nat) (n : Nat) :
    ∀ st st2 : ListRun, CompactInv content st →
      environ_list_after content.length n st = some st2 →
      CompactInv content st2 ∧ (1 ≤ n → 1 ≤ st2.i) := by
  induction n with
  | zero =>
    intro st st2 hinv h
    simp only [environ_list_after, Option.some.injEq] at h
    subst h
    exact ⟨hinv, fun h => absurd h (by omega)⟩
  | succ n ih =>
    intro st st2 hinv h
    rw [environ_list_after] at h
    by_cases hbr : st.bytes_read < content.length
    · simp only [hbr, if_true] at h
      obtain ⟨st1, h1, hinv1, hi1, _⟩ := environ_list_iter_inv content st hinv hbr
      rw [h1, Option.some_bind] at h
      obtain ⟨hinv2, hi2⟩ := ih st1 st2 hinv1 h
      refine ⟨hinv2, fun _ => ?_⟩
      cases n with
      | zero =>
        simp only [environ_list_after, Option.some.injEq] at h
        subst h
        exact hi1
      | succ m => exact hi2 (by omega)
    · simp [hbr] at h

theorem environ_list_loop_inv (content : List Nat) (fuel : Nat) :
    ∀ st : ListRun, CompactInv content st → content.length - st.bytes_read < fuel →
      ∃ st2, environ_list_loop fuel content.length st = some st2 ∧ CompactInv content st2 ∧
        content.length ≤ st2.bytes_read := by
  induction fuel with
  | zero => intro st _ h; omega
  | succ n ih =>
    intro st hinv hf
    rw [environ_list_loop_succ]
    by_cases hbr : st.bytes_read < content.length
    · simp only [hbr, if_true]
      obtain ⟨st1, h1, hinv1, _, hlt⟩ := environ_list_iter_inv content st hinv hbr
      rw [h1, Option.some_bind]
      exact ih st1 hinv1 (by omega)
    · simp only [hbr, if_false]
      exact ⟨st, rfl, hinv, by omega⟩

theorem compactInv_init (content : List Nat) :
    CompactInv content ⟨content ++ [0], 0, 0, []⟩ := by
  refine ⟨by simp, by simp, by simp, le_refl _, by simp, by simp, Or.inl rfl, by simp⟩

/-- C18. For every non-empty content read by `print_pid_environ_list`: after each
round of the loop the write index `i` satisfies
`1 <= i <= bytes_read <= total_read + 1`, the bytes `buf[0 .. i-1)` contain no
NUL, every store made so far went to an index from 0 to below `bytes_read`
(so inside the `total_read + 1` bytes of the read buffer and below every
record not yet read), and the part of the buffer from `bytes_read` on is
still as it was read. The loop ends, and all stores of the routine,
the final `buf[i-1] = 0` included, lie inside the `total_read + 1` bytes. -/
theorem environ_list_compaction (content : List Nat) (cap : Nat) (hcap : 0 < cap)
    (hne : content ≠ []) :
    (∀ n st, environ_list_after content.length (n + 1) ⟨content ++ [0], 0, 0, []⟩ = some st →
      1 ≤ st.i ∧ st.i ≤ st.bytes_read ∧ st.bytes_read ≤ content.length + 1 ∧
      0 ∉ st.buf.take (st.i.toNat - 1) ∧
      (∀ k ∈ st.stores, 0 ≤ k ∧ k < (st.bytes_read : Int) ∧ k < (content.length : Int) + 1) ∧
      st.buf.drop st.bytes_read = (content ++ [0]).drop st.bytes_read) ∧
    (∃ st, environ_list_run content cap = some st ∧ st.buf.length = content.length + 1 ∧
      ∀ k ∈ st.stores, 0 ≤ k ∧ k < (content.length : Int) + 1) := by
  constructor
  · intro n st h
    obtain ⟨⟨_, hdrop, hble, hi0, hile, hnul, _, hst⟩, hi1⟩ :=
      environ_list_after_inv content (n + 1) _ st (compactInv_init content) h
    refine ⟨hi1 (by omega), hile, hble, ?_, ?_, hdrop⟩
    · intro h0
      apply hnul
      have hsub : st.buf.take (st.i.toNat - 1) <+: st.buf.take st.i.toNat :=
        (List.take_prefix_take_left _ (by omega))
      exact hsub.subset h0
    · intro k hk
      have := hst k hk
      refine ⟨this.1, this.2, ?_⟩
      have : (st.bytes_read : Int) ≤ (content.length : Int) + 1 := by exact_mod_cast hble
      omega
  · unfold environ_list_run
    simp only [readAll_eq content cap hcap]
    obtain ⟨st2, hloop, ⟨hlen, _, hble, hi0, hile, _, hflag, hst⟩, hend⟩ :=
      environ_list_loop_inv content (content.length + 1) _ (compactInv_init content)
        (by simp)
    rw [hloop]
    refine ⟨_, rfl, ?_, ?_⟩
    · simp only
      unfold poke
      split <;> simp [hlen]
    · have hpos : 0 < content.length := List.length_pos.2 hne
      have hble2 : (st2.bytes_read : Int) ≤ (content.length : Int) + 1 := by exact_mod_cast hble
      have hi1 : 1 ≤ st2.i := by
        rcases hflag with h | h
        · omega
        · exact h
      intro k hk
      simp only [List.mem_append, List.mem_singleton] at hk
      rcases hk with hk | hk
      · have := hst k hk
        omega
      · subst hk
        omega

/-- C18, witness: the content `"FOO=bar\0BAZ=qux\0"`; after the first round
`i = 4` and `bytes_read = 8`, and all stores of the whole run lie below 17. -/
theorem environ_list_compaction_witness :
    environ_list_after 16 1
        ⟨[70, 79, 79, 61, 98, 97, 114, 0, 66, 65, 90, 61, 113, 117, 120, 0] ++ [0], 0, 0, []⟩ =
      some ⟨[70, 79, 79, 59, 98, 97, 114, 0, 66, 65, 90, 61, 113, 117, 120, 0, 0], 8, 4,
        [0, 1, 2, 3, 3]⟩ ∧
    (environ_list_run [70, 79, 79, 61, 98, 97, 114, 0, 66, 65, 90, 61, 113, 117, 120, 0] 8).map
        ListRun.stores = some [0, 1, 2, 3, 3, 4, 5, 6, 7, 7, 7] ∧
    ((1 : Int) ≤ 4 ∧ (4 : Int) ≤ (8 : Nat) ∧ 8 ≤ 16 + 1) := by
  have h := (environ_list_compaction
    [70, 79, 79, 61, 98, 97, 114, 0, 66, 65, 90, 61, 113, 117, 120, 0] 8
    (by decide) (by decide)).1 0
    ⟨[70, 79, 79, 59, 98, 97, 114, 0, 66, 65, 90, 61, 113, 117, 120, 0, 0], 8, 4,
      [0, 1, 2, 3, 3]⟩ (by decide)
  exact ⟨by decide, by decide, h.1, h.2.1, h.2.2.1⟩

/-- C16 (code defect). Two calls of `print_pid_cmdline` on the same widget, with
the same backing content `"a\0b\0c"` and the same capacity 8, give different
output when the automatic array holds different stale bytes at the two
calls; the same holds for the empty command-line file. The cause is the
missing terminator of C1. -/
theorem print_pid_cmdline_not_repeatable :
    outText (List.replicate 8 0)
        (print_pid_cmdline (oneFile [99] [97, 0, 98, 0, 99]) [99]
          [88, 88, 88, 88, 88, 88, 88, 88] 8) = [97, 32, 98, 32, 99, 88, 88] ∧
    outText (List.replicate 8 0)
        (print_pid_cmdline (oneFile [99] [97, 0, 98, 0, 99]) [99]
          [89, 89, 89, 89, 89, 89, 89, 89] 8) = [97, 32, 98, 32, 99, 89, 89] ∧
    print_pid_cmdline (oneFile [99] []) [99] [88, 88, 88, 88, 88, 88, 88, 88] 8 ≠
      print_pid_cmdline (oneFile [99] []) [99] [89, 89, 89, 89, 89, 89, 89, 89] 8 := by
  decide

end Proc
